import Mathlib

/-!
Verification of the JEE-Flash-Cards mixed Markdown/LaTeX rendering pipeline
(`LatexRenderer`) and of the quiz-data loader (`fetchQuestions`).

The renderer is shallowly embedded over `List Char`.  The two external
capabilities — the Markdown transform (`marked.parse`, configured with
`gfm`/`breaks`) and the math transform (`katex.renderToString`) — are black
boxes in the source, so they appear here as function parameters `md` and
`kat`; `kat` returns `Except` to model the `try`/`catch` around
`renderToString`.  JavaScript regular-expression replacement with a lazy
body (`/open([\s\S]*?)close/g`) is embedded as a left-to-right scan that, at
each position, matches the opening delimiter and then the *first* occurrence
of the closing delimiter, advancing one character when no match starts at
the current position.  `String.prototype.split(id).join(r)` is embedded as
`replaceAll`, the left-to-right replacement of every non-overlapping
occurrence.  Recursive scans are written with an explicit fuel argument
(always called with fuel = length of the scanned text) so that every
definition is structurally recursive and evaluates by `rfl`/`decide`.
-/

abbrev Chars := List Char

/-- The two math rendering modes of a span: `'block' | 'inline'` in the source. -/
inductive SpanType
  | block
  | inline
deriving DecidableEq

def SpanType.isBlock : SpanType → Bool
  | .block => true
  | .inline => false

/-- One record of the `latexMap`: the placeholder token (the map key), the
span type and the captured math source. -/
structure Entry where
  id : Chars
  type : SpanType
  math : Chars
deriving DecidableEq

/-- Decimal digits of `n`, with fuel (`natDigitsF (n+1) n` is always enough). -/
def natDigitsF : Nat → Nat → Chars
  | 0, _ => []
  | f+1, n => if n < 10 then [Nat.digitChar n] else natDigitsF f (n / 10) ++ [Nat.digitChar (n % 10)]

/-- Decimal representation of `n`, as produced by JS template interpolation. -/
def natDigits (n : Nat) : Chars := natDigitsF (n + 1) n

/-- The placeholder token for counter value `n`: `"MATHITEM" + n + "END"`. -/
def tokStr (n : Nat) : Chars := "MATHITEM".data ++ natDigits n ++ "END".data

/-- First occurrence of `cd` in the scanned text: returns the part before the
occurrence and the part after it (the lazy-body/closing-delimiter search of
the JS regex). -/
def findClose (cd : Chars) : Chars → Option (Chars × Chars)
  | [] => none
  | c :: rest =>
    if cd.isPrefixOf (c :: rest) then some ([], (c :: rest).drop cd.length)
    else
      match findClose cd rest with
      | some (a, b) => some (c :: a, b)
      | none => none

/-- One pass of `replaceMath` (a global lazy-regex replacement
`str.replace(/od([\s\S]*?)cd/g, ...)`): scans left to right; where the opening
delimiter `od` matches and a closing `cd` follows, the whole match is replaced
by the next token and recorded in the entry list; otherwise the scan advances
one character.  `fuel` is always instantiated with the length of the text. -/
def replaceMathF (od cd : Chars) (ty : SpanType) : Nat → Chars → Nat → List Entry → Chars × Nat × List Entry
  | 0, s, c, es => (s, c, es)
  | f+1, s, c, es =>
    match s with
    | [] => ([], c, es)
    | ch :: rest =>
      if od.isPrefixOf s then
        match findClose cd (s.drop od.length) with
        | some (content, after) =>
          let r := replaceMathF od cd ty f after (c + 1) (es ++ [⟨tokStr c, ty, content⟩])
          (tokStr c ++ r.1, r.2)
        | none =>
          let r := replaceMathF od cd ty f rest c es
          (ch :: r.1, r.2)
      else
        let r := replaceMathF od cd ty f rest c es
        (ch :: r.1, r.2)

/-- `replaceMath` of the source: one global regex pass over `s`, threading the
token counter `c` and the accumulated `latexMap` entries `es`. -/
def replaceMath (od cd : Chars) (ty : SpanType) (s : Chars) (c : Nat) (es : List Entry) : Chars × Nat × List Entry :=
  replaceMathF od cd ty s.length s c es

/-- The four extraction passes of `LatexRenderer`, in source order:
`$$...$$` (block), `\[...\]` (block), `\(...\)` (inline), `$...$` (inline).
Returns the protected text, the final counter and the `latexMap` entries in
insertion order. -/
def extractAll (text : Chars) : Chars × Nat × List Entry :=
  let r1 := replaceMath "$$".data "$$".data .block text 0 []
  let r2 := replaceMath "\\[".data "\\]".data .block r1.1 r1.2.1 r1.2.2
  let r3 := replaceMath "\\(".data "\\)".data .inline r2.1 r2.2.1 r2.2.2
  replaceMath "$".data "$".data .inline r3.1 r3.2.1 r3.2.2

/-- `rawHtml.split(p).join(r)`: replace every non-overlapping occurrence of
`p` in the text, left to right.  (The guard on an empty `p` only makes the
scan total; every token passed in by the source is non-empty.)  `fuel` is
always instantiated with the length of the text. -/
def replaceAllF (p r : Chars) : Nat → Chars → Chars
  | 0, s => s
  | f+1, s =>
    match s with
    | [] => []
    | ch :: rest =>
      if p.isPrefixOf s && !p.isEmpty then r ++ replaceAllF p r f (s.drop p.length)
      else ch :: replaceAllF p r f rest

def replaceAll (p r s : Chars) : Chars := replaceAllF p r s.length s

/-- The fallback substituted in the `catch` branch:
`<span class="text-red-400 error" title="${e}">$${data.math}$</span>`.
In a JS template literal `$${data.math}$` is a literal `$`, the math source,
and another literal `$`. -/
def errorFragment (math err : Chars) : Chars :=
  "<span class=\"text-red-400 error\" title=\"".data ++ err ++ "\">$".data ++ math ++ "$</span>".data

/-- The restoration loop (`latexMap.forEach`): for each entry, render its math
(display mode iff the span is block) and substitute the result — or, when the
math transform throws, the error fragment — for every occurrence of the
entry's token. -/
def restore (kat : Chars → Bool → Except Chars Chars) : List Entry → Chars → Chars
  | [], html => html
  | e :: rest, html =>
    let repl :=
      match kat e.math e.type.isBlock with
      | .ok rendered => rendered
      | .error err => errorFragment e.math err
    restore kat rest (replaceAll e.id repl html)

/-- The `useMemo` body of `LatexRenderer`: empty input yields empty output;
otherwise extract the math spans, run the Markdown transform `md` on the
protected text, and restore the tokens. -/
def htmlContent (md : Chars → Chars) (kat : Chars → Bool → Except Chars Chars) (text : Chars) : Chars :=
  if text.isEmpty then []
  else
    let r := extractAll text
    restore kat r.2.2 (md r.1)

/-- The rendered component: a `div` with class `markdown-content ${className}`
whose inner HTML is `htmlContent`.  The `block` prop is accepted (with its
source default `false`) but never read. -/
def LatexRenderer (md : Chars → Chars) (kat : Chars → Bool → Except Chars Chars)
    (text className : Chars) (block : Bool) : Chars :=
  "<div class=\"markdown-content ".data ++ className ++ "\">".data
    ++ htmlContent md kat text ++ "</div>".data

/-- Does the placeholder pattern `MATHITEM[0-9]+END` match at the head of `s`? -/
def patternAt (s : Chars) : Bool :=
  "MATHITEM".data.isPrefixOf s &&
    (let t := s.drop 8
     !(t.takeWhile Char.isDigit).isEmpty && "END".data.isPrefixOf (t.dropWhile Char.isDigit))

/-- Does `s` contain a substring matching the placeholder pattern? -/
def hasPattern : Chars → Bool
  | [] => false
  | s@(_ :: rest) => patternAt s || hasPattern rest

/-- The text content of an HTML fragment: characters outside `<...>` tag
regions. -/
def innerTextAux : Bool → Chars → Chars
  | _, [] => []
  | inTag, c :: rest =>
    if c = '<' then innerTextAux true rest
    else if c = '>' then innerTextAux false rest
    else if inTag then innerTextAux true rest
    else c :: innerTextAux false rest

def innerText (s : Chars) : Chars := innerTextAux false s

/-- The characters that can occur in a placeholder token: the letters of
`MATHITEM`/`END` and the decimal digits. -/
def tokChar (c : Char) : Bool :=
  c = 'M' || c = 'A' || c = 'T' || c = 'H' || c = 'I' || c = 'E' || c = 'N' || c = 'D' || c.isDigit

/-- An abstract view of the working text during the pipeline: a concatenation
of literal fragments and placeholder tokens. -/
inductive Piece
  | frag (f : Chars)
  | tokp (n : Nat)

def Piece.flat1 : Piece → Chars
  | .frag f => f
  | .tokp n => tokStr n

/-- Flatten a piece list back to the working text. -/
def flat : List Piece → Chars
  | [] => []
  | p :: ps => p.flat1 ++ flat ps

/-- Well-formedness of a piece list: no literal fragment contains the capital
letter `M` (so every occurrence of a token in the flattened text starts inside
a token piece). -/
def WFp (ps : List Piece) : Prop := ∀ f, Piece.frag f ∈ ps → 'M' ∉ f

/-- The token indices present in a piece list. -/
def toksOf (ps : List Piece) : List Nat :=
  ps.filterMap fun p => match p with
    | .tokp n => some n
    | .frag _ => none

/-- Replace every `tokp k` piece by the literal fragment `r`. -/
def replP (k : Nat) (r : Chars) : Piece → Piece
  | .frag f => .frag f
  | .tokp j => if j = k then .frag r else .tokp j

/-! ### Model of the quiz-data loader (`quizService`)

JavaScript values are modelled by `JVal`; JS numbers are modelled as integers
(the claims only exercise integral ids), `NaN` as `none` in the result of the
`Number()` coercion. -/

inductive JVal
  | null
  | undefined
  | bool (b : Bool)
  | num (n : Int)
  | str (s : String)
  | arr (elems : List JVal)
  | obj (fields : List (String × JVal))

def isStr : JVal → Bool
  | .str _ => true
  | _ => false

/-- JS truthiness. -/
def jsTruthy : JVal → Bool
  | .null | .undefined => false
  | .bool b => b
  | .num n => n != 0
  | .str s => s ≠ ""
  | .arr _ => true
  | .obj _ => true

/-- `a || b` in JS. -/
def jsOr (a b : JVal) : JVal := if jsTruthy a then a else b

/-- Property access `v[k]` on an object; `undefined` on anything else that
tolerates property access (the loader only reads ad-hoc keys from items). -/
def objGet : JVal → String → JVal
  | .obj fields, k =>
    match fields.find? (fun p => p.1 == k) with
    | some p => p.2
    | none => .undefined
  | _, _ => .undefined

/-- Property access on arbitrary data: reading a property of `null` or
`undefined` throws a TypeError. -/
def getField (v : JVal) (k : String) : Except Unit JVal :=
  match v with
  | .null | .undefined => .error ()
  | _ => .ok (objGet v k)

/-- The JS `String()` coercion (array stringification simplified; no claim
exercises it). -/
def jsToString : JVal → String
  | .null => "null"
  | .undefined => "undefined"
  | .bool b => if b then "true" else "false"
  | .num n => toString n
  | .str s => s
  | .arr _ => ""
  | .obj _ => "[object Object]"

/-- The JS `Number()` coercion, `none` for `NaN` (string parsing simplified to
optional-sign decimal integers; arrays and objects simplified to `NaN` — no
claim exercises those corners). -/
def jsNumber : JVal → Option Int
  | .null => some 0
  | .undefined => none
  | .bool b => some (if b then 1 else 0)
  | .num n => some n
  | .str s => s.toInt?
  | .arr _ => none
  | .obj _ => none

/-- `mapSubject`: the phy/chem/math lookup.  `shortSubject?.toLowerCase()`
yields `undefined` for nullish subjects, but throws a TypeError when the
subject is any other non-string value (numbers, booleans, arrays, objects
have no `toLowerCase`). -/
def mapSubject : JVal → Except Unit String
  | .null | .undefined => .ok "General"
  | .str s =>
    let lower := s.toLower
    .ok (if lower = "phy" then "Physics"
      else if lower = "chem" then "Chemistry"
      else if lower = "math" then "Mathematics"
      else if s ≠ "" then s else "General")
  | _ => .error ()

/-- The normalized question record.  Fields keep their JS runtime values:
the code coerces `answer` and `subject` with `String()` and builds `id` as a
number, but stores `question` and `solution` without coercion. -/
structure QuizQuestion where
  id : JVal
  question : JVal
  options : List JVal
  answer : JVal
  solution : JVal
  subject : JVal

/-- One step of the `normalizeData` map callback. -/
def normalizeItem (index : Nat) (item : JVal) : Except Unit (Option QuizQuestion) :=
  match item with
  | .obj _ | .arr _ => do
    let qText := jsOr (objGet item "question") (.str "Question Text Missing")
    let answer := jsOr (objGet item "gold") (jsOr (objGet item "answer") (.str ""))
    let subject ← mapSubject (objGet item "subject")
    let finalId : Int :=
      match jsNumber (objGet item "index") with
      | some n => if n != 0 then n else (index : Int) + 1
      | none => (index : Int) + 1
    pure (some
      { id := .num finalId
        question := qText
        options := []
        answer := .str (jsToString answer)
        solution := jsOr (objGet item "solution") (.str "")
        subject := .str (jsToString (.str subject)) })
  | _ => pure none

/-- The sequential `.map` over the item list, threading the element index;
an exception thrown by the callback aborts the whole map. -/
def normalizeList : Nat → List JVal → Except Unit (List (Option QuizQuestion))
  | _, [] => .ok []
  | i, x :: xs => do
    let y ← normalizeItem i x
    let ys ← normalizeList (i + 1) xs
    pure (y :: ys)

/-- `normalizeData`: pick the root `questions` array (or the root array),
map items through `normalizeItem`, drop nulls and items with a falsy
question. -/
def normalizeData (data : JVal) : Except Unit (List QuizQuestion) := do
  let q ← getField data "questions"
  let list :=
    match q with
    | .arr l => l
    | _ =>
      match data with
      | .arr l => l
      | _ => []
  let mapped ← normalizeList 0 list
  pure ((mapped.filterMap id).filter fun q => jsTruthy q.question)

/-- The single fallback question of `FALLBACK_DATA`. -/
def fb0 : QuizQuestion :=
  { id := .num 1
    question := .str "If $f(x) = x^2 + 2x + 1$, what is $f(1)$?"
    options := []
    answer := .str "4"
    solution := .str "Substitute $x=1$: $f(1) = 1^2 + 2(1) + 1 = 1 + 2 + 1 = 4$."
    subject := .str "Mathematics" }

def FALLBACK_DATA : List QuizQuestion := [fb0]

/-- The observable outcome of `fetch(DATA_URL)` followed by
`response.json()`: network failure, or a response with its `ok` flag and its
parsed body (`none` when the body is not valid JSON). -/
inductive FetchOutcome
  | netFail
  | resp (ok : Bool) (body : Option JVal)

/-- `fetchQuestions`: every failure (network error, non-ok status, invalid
JSON, a thrown TypeError inside `normalizeData`, or zero valid questions) is
caught and answered with `FALLBACK_DATA`. -/
def fetchQuestions : FetchOutcome → List QuizQuestion
  | .netFail => FALLBACK_DATA
  | .resp false _ => FALLBACK_DATA
  | .resp true none => FALLBACK_DATA
  | .resp true (some j) =>
    match normalizeData j with
    | .error _ => FALLBACK_DATA
    | .ok l => if l.isEmpty then FALLBACK_DATA else l

/-! ## Theorems -/

theorem isPre_iff (p s : Chars) : p.isPrefixOf s = true ↔ ∃ t, s = p ++ t := by
  rw [ List.isPrefixOf_iff_prefix]
  constructor
  · rintro ⟨t, rfl⟩
    exact ⟨t, rfl⟩
  · rintro ⟨t, rfl⟩
    exact ⟨t, rfl⟩

theorem isPre_app_self (p x : Chars) : p.isPrefixOf (p ++ x) = true := by
  rw [isPre_iff]
  exact ⟨x, rfl⟩

theorem findClose_decomp (cd : Chars) (hcd : cd ≠ []) :
    ∀ s a b, findClose cd s = some (a, b) → s = a ++ cd ++ b := by
  intro s
  induction s with
  | nil => intro a b h; simp [findClose] at h
  | cons c rest ih =>
    intro a b h
    by_cases hp : cd.isPrefixOf (c :: rest) = true
    · rw [findClose, if_pos hp] at h
      obtain ⟨t, ht⟩ := (isPre_iff _ _).1 hp
      obtain ⟨rfl, rfl⟩ : a = [] ∧ b = (c :: rest).drop cd.length := by
        have h' := h.symm
        simp only [Option.some.injEq, Prod.mk.injEq] at h'
        exact ⟨h'.1, h'.2⟩
      rw [ht, List.drop_left]
      simp [ht]
    · rw [findClose, if_neg hp] at h
      cases hfc : findClose cd rest with
      | none => rw [hfc] at h; exact absurd h (by simp)
      | some ab =>
        obtain ⟨a', b'⟩ := ab
        rw [hfc] at h
        have ha : a = c :: a' ∧ b = b' := by
          constructor <;> simp_all
        obtain ⟨rfl, rfl⟩ := ha
        simp [ih _ _ hfc]

theorem findClose_len (cd : Chars) (hcd : cd ≠ []) (s a b : Chars)
    (h : findClose cd s = some (a, b)) : b.length + 1 ≤ s.length := by
  have := findClose_decomp cd hcd s a b h
  subst this
  have : 1 ≤ cd.length := by
    cases cd with
    | nil => exact absurd rfl hcd
    | cons x xs => simp
  simp only [List.length_append]
  omega

/-- C2: the four delimiter rules apply in order over the remaining text:
`"$$x^2$$ and $y$"` yields exactly one block span `x^2` and one inline span
`y`; `"$a$$b$"` yields exactly two inline spans `a` and `b` (the `$$` rule
does not fire, as no closing `$$` exists). -/
theorem c2_precedence :
    (extractAll "$$x^2$$ and $y$".data).2.2
      = [⟨tokStr 0, .block, "x^2".data⟩, ⟨tokStr 1, .inline, "y".data⟩]
    ∧ (extractAll "$a$$b$".data).2.2
      = [⟨tokStr 0, .inline, "a".data⟩, ⟨tokStr 1, .inline, "b".data⟩] := by
  decide

/-- C6: a single unmatched `$` is extracted by no rule: the token table stays
empty and the literal text (including `$5`) is passed unchanged into the
Markdown transform, whatever the two external transforms are. -/
theorem c6_unterminated_passthrough :
    extractAll "cost is $5 today".data = ("cost is $5 today".data, 0, [])
    ∧ ∀ md kat, htmlContent md kat "cost is $5 today".data = md "cost is $5 today".data := by
  exact ⟨by decide, fun md kat => rfl⟩

/-- C7: `\[x+1\]` and `$$x+1$$` extract to the same block-mode span with
source `x+1` (so the math transform is invoked with display mode on for
both), and the rendered HTML of the two inputs is equal for any pair of
external transforms. -/
theorem c7_block_equivalence :
    (extractAll "\\[x+1\\]".data).2.2 = [⟨tokStr 0, .block, "x+1".data⟩]
    ∧ (extractAll "$$x+1$$".data).2.2 = [⟨tokStr 0, .block, "x+1".data⟩]
    ∧ ∀ md kat, htmlContent md kat "\\[x+1\\]".data = htmlContent md kat "$$x+1$$".data := by
  exact ⟨by decide, by decide, fun md kat => rfl⟩

/-- C9: the `block` prop is accepted by the component but never read: the
produced HTML is identical for `block = true` and `block = false`, for every
input and every pair of external transforms. -/
theorem c9_block_prop_ignored :
    ∀ md kat (text className : Chars) (b1 b2 : Bool),
      LatexRenderer md kat text className b1 = LatexRenderer md kat text className b2 := by
  intro md kat text className b1 b2
  rfl

/-- C1 counterexample: on the input `"MATHITEM0END"` — raw text that itself
matches the placeholder pattern and contains no math delimiter — extraction
stores nothing, the restoration loop replaces nothing, and the final output
still contains a substring matching the placeholder pattern.  The Markdown
transform is instantiated with the identity, modelling the spec's own
guarantee that plain alphanumeric runs pass through it unmodified (the math
transform is never invoked on this input). -/
theorem c1_counterexample :
    hasPattern (htmlContent (fun s => s) (fun _ _ => Except.ok []) "MATHITEM0END".data) = true := by
  decide

/-- C3 counterexample: on the input `"MATHITEM0END$x$"` the single extracted
span is assigned the token `MATHITEM0END`, which occurs verbatim in the
pre-existing input text: at substitution time the working text is
`MATHITEM0ENDMATHITEM0END`, so the generated token does collide with
pre-existing text. -/
theorem c3_counterexample :
    (extractAll "MATHITEM0END$x$".data).1 = tokStr 0 ++ tokStr 0
    ∧ (extractAll "MATHITEM0END$x$".data).2.2.map Entry.id = [tokStr 0] := by
  decide

/-- C5 counterexample: for the failed span with source `x` and error `err`,
the text content of the substituted error fragment is not the bare source
`x` — the fragment wraps the source in single dollars (`$x$`). -/
theorem c5_counterexample :
    innerText (errorFragment "x".data "err".data) ≠ "x".data
    ∧ innerText (errorFragment "x".data "err".data) = "$x$".data := by
  decide

theorem innerTextAux_skip (l : Chars) (h : '>' ∉ l) (rest : Chars) :
    innerTextAux true (l ++ rest) = innerTextAux true rest := by
  induction l with
  | nil => rfl
  | cons c t ih =>
    have hc : c ≠ '>' := fun e => h (e ▸ List.mem_cons_self c t)
    have ht : '>' ∉ t := fun m => h (List.mem_cons_of_mem _ m)
    by_cases h1 : c = '<'
    · simp [innerTextAux, h1, ih ht]
    · simp [innerTextAux, h1, hc, ih ht]

theorem innerTextAux_copy (l : Chars) (h1 : '<' ∉ l) (h2 : '>' ∉ l) (rest : Chars) :
    innerTextAux false (l ++ rest) = l ++ innerTextAux false rest := by
  induction l with
  | nil => rfl
  | cons c t ih =>
    have hc1 : c ≠ '<' := fun e => h1 (e ▸ List.mem_cons_self c t)
    have hc2 : c ≠ '>' := fun e => h2 (e ▸ List.mem_cons_self c t)
    have ht1 : '<' ∉ t := fun m => h1 (List.mem_cons_of_mem _ m)
    have ht2 : '>' ∉ t := fun m => h2 (List.mem_cons_of_mem _ m)
    simp [innerTextAux, hc1, hc2, ih ht1 ht2]

/-- C5 (amended): the text content of the error fragment is the captured math
source wrapped in single-dollar delimiters — the fragment re-adds `$...$`
around the un-rendered source regardless of which delimiter form the span
originally used (stated for sources and error details free of the tag
characters, so that text content is well defined). -/
theorem c5_error_fragment_wraps_source (math err : Chars)
    (hm1 : '<' ∉ math) (hm2 : '>' ∉ math) (he : '>' ∉ err) :
    innerText (errorFragment math err) = '$' :: (math ++ ['$']) := by
  have hre : errorFragment math err
      = '<' :: ("span class=\"text-red-400 error\" title=\"".data
          ++ (err ++ ('"' :: '>' :: '$' :: (math ++ "$</span>".data)))) := by
    simp only [errorFragment, List.append_assoc]
    rfl
  rw [innerText, hre]
  have step1 : ∀ X : Chars, innerTextAux false ('<' :: X) = innerTextAux true X := fun X => rfl
  rw [step1]
  rw [innerTextAux_skip _ (by decide)]
  rw [innerTextAux_skip _ he]
  have step2 : ∀ X : Chars, innerTextAux true ('"' :: '>' :: X) = innerTextAux false X :=
    fun X => rfl
  rw [step2]
  have step3 : ∀ X : Chars, innerTextAux false ('$' :: X) = '$' :: innerTextAux false X :=
    fun X => rfl
  rw [step3]
  rw [innerTextAux_copy _ hm1 hm2]
  rfl

/-- Witness for `c5_error_fragment_wraps_source` at source `x`, error `err`. -/
theorem c5_error_fragment_wraps_source_witness :
    ('<' ∉ "x".data) ∧
      innerText (errorFragment "x".data "err".data) = '$' :: ("x".data ++ ['$']) :=
  ⟨by decide, c5_error_fragment_wraps_source "x".data "err".data (by decide) (by decide) (by decide)⟩

/-- C4: when the math transform throws on a span's source, the restoration
step substitutes the error fragment — which contains the original math
source, the error detail and the `error` marker class — for every occurrence
of that span's token (`replaceAll` is the `split`/`join` of the source), and
then processes the remaining spans exactly as before, so no exception escapes
and the other spans are unaffected. -/
theorem c4_fail_soft (kat : Chars → Bool → Except Chars Chars) (idc : Chars)
    (ty : SpanType) (math err : Chars) (rest : List Entry) (html : Chars)
    (h : kat math ty.isBlock = .error err) :
    restore kat (⟨idc, ty, math⟩ :: rest) html
      = restore kat rest (replaceAll idc (errorFragment math err) html)
    ∧ math <:+: errorFragment math err
    ∧ err <:+: errorFragment math err
    ∧ "error".data <:+: errorFragment math err := by
  refine ⟨by simp only [restore, h], ?_, ?_, ?_⟩
  · exact ⟨"<span class=\"text-red-400 error\" title=\"".data ++ err ++ "\">$".data,
      "$</span>".data, by simp [errorFragment, List.append_assoc]⟩
  · exact ⟨"<span class=\"text-red-400 error\" title=\"".data,
      "\">$".data ++ math ++ "$</span>".data, by simp [errorFragment, List.append_assoc]⟩
  · exact ⟨"<span class=\"text-red-400 ".data,
      "\" title=\"".data ++ err ++ "\">$".data ++ math ++ "$</span>".data,
      by simp [errorFragment, List.append_assoc]⟩

/-- Witness for `c4_fail_soft`: a math transform that always throws, applied
to the spec's example source. -/
theorem c4_fail_soft_witness :
    restore (fun _ _ => Except.error "boom".data) [⟨tokStr 0, .inline, "\\bad\x7b".data⟩] (tokStr 0)
      = restore (fun _ _ => Except.error "boom".data) []
          (replaceAll (tokStr 0) (errorFragment "\\bad\x7b".data "boom".data) (tokStr 0))
    ∧ "\\bad\x7b".data <:+: errorFragment "\\bad\x7b".data "boom".data :=
  ⟨(c4_fail_soft (fun _ _ => Except.error "boom".data) (tokStr 0) .inline "\\bad\x7b".data
      "boom".data [] (tokStr 0) rfl).1,
   (c4_fail_soft (fun _ _ => Except.error "boom".data) (tokStr 0) .inline "\\bad\x7b".data
      "boom".data [] (tokStr 0) rfl).2.1⟩

theorem replaceMathF_congr (od cd : Chars) (ty : SpanType) (hod : od ≠ []) (hcd : cd ≠ []) :
    ∀ (n : Nat) (s : Chars), s.length = n → ∀ (c : Nat) (es : List Entry) (f1 f2 : Nat),
      n ≤ f1 → n ≤ f2 →
      replaceMathF od cd ty f1 s c es = replaceMathF od cd ty f2 s c es := by
  intro n
  induction n using Nat.strong_induction_on with
  | _ n ih =>
    intro s hs c es f1 f2 h1 h2
    cases s with
    | nil => cases f1 <;> cases f2 <;> rfl
    | cons ch rest =>
      subst hs
      cases f1 with
      | zero => simp at h1
      | succ a =>
        cases f2 with
        | zero => simp at h2
        | succ b =>
          have ha : rest.length ≤ a := by simp at h1; omega
          have hb : rest.length ≤ b := by simp at h2; omega
          simp only [replaceMathF]
          by_cases hp : od.isPrefixOf (ch :: rest) = true
      
          · rw [if_pos hp, if_pos hp]
            cases hfc : findClose cd ((ch :: rest).drop od.length) with
            | none =>
              dsimp only
              rw [ih rest.length (by simp) rest rfl c es a b ha hb]
            | some pr =>
              obtain ⟨content, after⟩ := pr
              have hal : after.length ≤ rest.length := by
                have h0 := findClose_len cd hcd _ _ _ hfc
                have h3 : ((ch :: rest).drop od.length).length ≤ rest.length + 1 := by
                  simp [List.length_drop]
                omega
              dsimp only
              rw [ih after.length (by simp only [List.length_cons]; omega) after rfl (c+1)
                (es ++ [Entry.mk (tokStr c) ty content]) a b (by omega) (by omega)]
          · rw [if_neg hp, if_neg hp]
            rw [ih rest.length (by simp) rest rfl c es a b ha hb]

theorem replaceMath_nil (od cd : Chars) (ty : SpanType) (c : Nat) (es : List Entry) :
    replaceMath od cd ty [] c es = ([], c, es) := rfl

theorem replaceMath_match (od cd : Chars) (ty : SpanType) (hod : od ≠ []) (hcd : cd ≠ [])
    (ch : Char) (rest : Chars) (c : Nat) (es : List Entry) (content after : Chars)
    (hp : od.isPrefixOf (ch :: rest) = true)
    (hfc : findClose cd ((ch :: rest).drop od.length) = some (content, after)) :
    replaceMath od cd ty (ch :: rest) c es
      = (tokStr c ++ (replaceMath od cd ty after (c+1) (es ++ [⟨tokStr c, ty, content⟩])).1,
         (replaceMath od cd ty after (c+1) (es ++ [⟨tokStr c, ty, content⟩])).2) := by
  have hal : after.length ≤ rest.length := by
    have h0 := findClose_len cd hcd _ _ _ hfc
    have h3 : ((ch :: rest).drop od.length).length ≤ rest.length + 1 := by
      simp [List.length_drop]
    omega
  show replaceMathF od cd ty (rest.length + 1) (ch :: rest) c es = _
  simp only [replaceMathF, hp, if_true, hfc]
  rw [replaceMathF_congr od cd ty hod hcd after.length after rfl (c+1)
    (es ++ [Entry.mk (tokStr c) ty content]) rest.length after.length (by omega) le_rfl]
  rfl

theorem replaceMath_step (od cd : Chars) (ty : SpanType) (hod : od ≠ []) (hcd : cd ≠ [])
    (ch : Char) (rest : Chars) (c : Nat) (es : List Entry)
    (h : od.isPrefixOf (ch :: rest) = false
        ∨ findClose cd ((ch :: rest).drop od.length) = none) :
    replaceMath od cd ty (ch :: rest) c es
      = (ch :: (replaceMath od cd ty rest c es).1, (replaceMath od cd ty rest c es).2) := by
  show replaceMathF od cd ty (rest.length + 1) (ch :: rest) c es = _
  rcases h with h | h
  · simp only [replaceMathF, h]
    rfl
  · by_cases hp : od.isPrefixOf (ch :: rest) = true
    · simp only [replaceMathF, hp, if_true, h]
      rfl
    · simp only [replaceMathF, if_neg hp]
      rfl

theorem replaceMath_ids (od cd : Chars) (ty : SpanType) (hod : od ≠ []) (hcd : cd ≠ []) :
    ∀ (n : Nat) (s : Chars), s.length = n → ∀ (c : Nat) (es : List Entry),
      (replaceMath od cd ty s c es).2.2.map Entry.id
        = es.map Entry.id
          ++ (List.range ((replaceMath od cd ty s c es).2.1 - c)).map (fun i => tokStr (c + i))
      ∧ c ≤ (replaceMath od cd ty s c es).2.1 := by
  intro n
  induction n using Nat.strong_induction_on with
  | _ n ih =>
    intro s hs c es
    cases s with
    | nil =>
      rw [replaceMath_nil]
      simp
    | cons ch rest =>
      subst hs
      by_cases hp : od.isPrefixOf (ch :: rest) = true
      · cases hfc : findClose cd ((ch :: rest).drop od.length) with
        | none =>
          rw [replaceMath_step od cd ty hod hcd ch rest c es (Or.inr hfc)]
          exact ih rest.length (by simp) rest rfl c es
        | some pr =>
          obtain ⟨content, after⟩ := pr
          rw [replaceMath_match od cd ty hod hcd ch rest c es content after hp hfc]
          dsimp only
          have hal : after.length ≤ rest.length := by
            have h0 := findClose_len cd hcd _ _ _ hfc
            have h3 : ((ch :: rest).drop od.length).length ≤ rest.length + 1 := by
              simp [List.length_drop]
            omega
          obtain ⟨h1, h2⟩ := ih after.length (by simp only [List.length_cons]; omega) after rfl
            (c + 1) (es ++ [Entry.mk (tokStr c) ty content])
          refine ⟨?_, by omega⟩
          rw [h1]
          have hx : (replaceMath od cd ty after (c + 1)
              (es ++ [Entry.mk (tokStr c) ty content])).2.1 - c
            = ((replaceMath od cd ty after (c + 1)
                (es ++ [Entry.mk (tokStr c) ty content])).2.1 - (c + 1)) + 1 := by omega
          rw [hx, List.range_succ_eq_map]
          simp only [List.map_append, List.map_cons, List.map_nil, List.map_map,
            List.append_assoc, List.singleton_append, Nat.add_zero]
          refine congrArg _ (congrArg _ ?_)
          refine List.map_congr_left fun i _ => ?_
          show tokStr (c + 1 + i) = tokStr (c + Nat.succ i)
          exact congrArg tokStr (by omega)
      · rw [replaceMath_step od cd ty hod hcd ch rest c es (Or.inl (by rwa [Bool.not_eq_true] at hp))]
        exact ih rest.length (by simp) rest rfl c es

theorem ids_invariant (od cd : Chars) (ty : SpanType) (hod : od ≠ []) (hcd : cd ≠ [])
    (s : Chars) (c : Nat) (es : List Entry)
    (h : es.map Entry.id = (List.range c).map tokStr) :
    (replaceMath od cd ty s c es).2.2.map Entry.id
      = (List.range (replaceMath od cd ty s c es).2.1).map tokStr
    ∧ c ≤ (replaceMath od cd ty s c es).2.1 := by
  obtain ⟨h1, h2⟩ := replaceMath_ids od cd ty hod hcd s.length s rfl c es
  refine ⟨?_, h2⟩
  rw [h1, h]
  have hx : (replaceMath od cd ty s c es).2.1 = c + ((replaceMath od cd ty s c es).2.1 - c) := by
    omega
  conv_rhs => rw [hx, List.range_add]
  rw [List.map_append, List.map_map]
  rfl

/-- Every call of the extraction pipeline assigns its entries the tokens
`MATHITEM0END`, `MATHITEM1END`, ... in order: the entry ids are exactly
`tokStr` applied to `0, ..., length - 1`, so the counter starts at `0` in
every invocation and increases by one per extracted span. -/
theorem extract_ids (text : Chars) :
    (extractAll text).2.2.map Entry.id
      = (List.range (extractAll text).2.2.length).map tokStr := by
  have s1 := (ids_invariant "$$".data "$$".data SpanType.block (by decide) (by decide)
    text 0 [] (by simp)).1
  have s2 := (ids_invariant "\\[".data "\\]".data SpanType.block (by decide) (by decide)
    (replaceMath "$$".data "$$".data SpanType.block text 0 []).1
    (replaceMath "$$".data "$$".data SpanType.block text 0 []).2.1
    (replaceMath "$$".data "$$".data SpanType.block text 0 []).2.2 s1).1
  have s3 := (ids_invariant "\\(".data "\\)".data SpanType.inline (by decide) (by decide)
    (replaceMath "\\[".data "\\]".data SpanType.block
      (replaceMath "$$".data "$$".data SpanType.block text 0 []).1
      (replaceMath "$$".data "$$".data SpanType.block text 0 []).2.1
      (replaceMath "$$".data "$$".data SpanType.block text 0 []).2.2).1
    (replaceMath "\\[".data "\\]".data SpanType.block
      (replaceMath "$$".data "$$".data SpanType.block text 0 []).1
      (replaceMath "$$".data "$$".data SpanType.block text 0 []).2.1
      (replaceMath "$$".data "$$".data SpanType.block text 0 []).2.2).2.1
    (replaceMath "\\[".data "\\]".data SpanType.block
      (replaceMath "$$".data "$$".data SpanType.block text 0 []).1
      (replaceMath "$$".data "$$".data SpanType.block text 0 []).2.1
      (replaceMath "$$".data "$$".data SpanType.block text 0 []).2.2).2.2 s2).1
  have s4 := (ids_invariant "$".data "$".data SpanType.inline (by decide) (by decide)
    (replaceMath "\\(".data "\\)".data SpanType.inline
      (replaceMath "\\[".data "\\]".data SpanType.block
        (replaceMath "$$".data "$$".data SpanType.block text 0 []).1
        (replaceMath "$$".data "$$".data SpanType.block text 0 []).2.1
        (replaceMath "$$".data "$$".data SpanType.block text 0 []).2.2).1
      (replaceMath "\\[".data "\\]".data SpanType.block
        (replaceMath "$$".data "$$".data SpanType.block text 0 []).1
        (replaceMath "$$".data "$$".data SpanType.block text 0 []).2.1
        (replaceMath "$$".data "$$".data SpanType.block text 0 []).2.2).2.1
      (replaceMath "\\[".data "\\]".data SpanType.block
        (replaceMath "$$".data "$$".data SpanType.block text 0 []).1
        (replaceMath "$$".data "$$".data SpanType.block text 0 []).2.1
        (replaceMath "$$".data "$$".data SpanType.block text 0 []).2.2).2.2).1
    (replaceMath "\\(".data "\\)".data SpanType.inline
      (replaceMath "\\[".data "\\]".data SpanType.block
        (replaceMath "$$".data "$$".data SpanType.block text 0 []).1
        (replaceMath "$$".data "$$".data SpanType.block text 0 []).2.1
        (replaceMath "$$".data "$$".data SpanType.block text 0 []).2.2).1
      (replaceMath "\\[".data "\\]".data SpanType.block
        (replaceMath "$$".data "$$".data SpanType.block text 0 []).1
        (replaceMath "$$".data "$$".data SpanType.block text 0 []).2.1
        (replaceMath "$$".data "$$".data SpanType.block text 0 []).2.2).2.1
      (replaceMath "\\[".data "\\]".data SpanType.block
        (replaceMath "$$".data "$$".data SpanType.block text 0 []).1
        (replaceMath "$$".data "$$".data SpanType.block text 0 []).2.1
        (replaceMath "$$".data "$$".data SpanType.block text 0 []).2.2).2.2).2.1
    (replaceMath "\\(".data "\\)".data SpanType.inline
      (replaceMath "\\[".data "\\]".data SpanType.block
        (replaceMath "$$".data "$$".data SpanType.block text 0 []).1
        (replaceMath "$$".data "$$".data SpanType.block text 0 []).2.1
        (replaceMath "$$".data "$$".data SpanType.block text 0 []).2.2).1
      (replaceMath "\\[".data "\\]".data SpanType.block
        (replaceMath "$$".data "$$".data SpanType.block text 0 []).1
        (replaceMath "$$".data "$$".data SpanType.block text 0 []).2.1
        (replaceMath "$$".data "$$".data SpanType.block text 0 []).2.2).2.1
      (replaceMath "\\[".data "\\]".data SpanType.block
        (replaceMath "$$".data "$$".data SpanType.block text 0 []).1
        (replaceMath "$$".data "$$".data SpanType.block text 0 []).2.1
        (replaceMath "$$".data "$$".data SpanType.block text 0 []).2.2).2.2).2.2 s3).1
  have s4' : (extractAll text).2.2.map Entry.id
      = (List.range (extractAll text).2.1).map tokStr := s4
  have hl : (extractAll text).2.2.length = (extractAll text).2.1 := by
    have h := congrArg List.length s4'
    simpa using h
  rw [hl]
  exact s4'

theorem natDigitsF_eq : ∀ (n : Nat), ∀ f, n < f → natDigitsF f n = natDigits n := by
  intro n
  induction n using Nat.strong_induction_on with
  | _ n ih =>
    intro f hf
    cases f with
    | zero => omega
    | succ g =>
      show natDigitsF (g + 1) n = natDigitsF (n + 1) n
      by_cases h10 : n < 10
      · simp [natDigitsF, h10]
      · have hd : n / 10 < n := Nat.div_lt_self (by omega) (by omega)
        simp only [natDigitsF, if_neg h10]
        rw [ih (n / 10) hd g (by omega), ih (n / 10) hd n (by omega)]

theorem digitChar_isDigit (d : Nat) (h : d < 10) : (Nat.digitChar d).isDigit = true := by
  interval_cases d <;> decide

theorem natDigits_digit : ∀ (n : Nat) (c : Char), c ∈ natDigits n → c.isDigit = true := by
  intro n
  induction n using Nat.strong_induction_on with
  | _ n ih =>
    intro c hc
    by_cases h10 : n < 10
    · rw [natDigits] at hc
      simp only [natDigitsF, if_pos h10, List.mem_singleton] at hc
      exact hc ▸ digitChar_isDigit n h10
    · have hd : n / 10 < n := Nat.div_lt_self (by omega) (by omega)
      rw [natDigits] at hc
      simp only [natDigitsF, if_neg h10, natDigitsF_eq (n / 10) n (by omega),
        List.mem_append, List.mem_singleton] at hc
      rcases hc with hc | hc
      · exact ih (n / 10) hd c hc
      · exact hc ▸ digitChar_isDigit (n % 10) (Nat.mod_lt n (by omega))

theorem natDigits_ne_nil (n : Nat) : natDigits n ≠ [] := by
  by_cases h10 : n < 10
  · rw [natDigits]
    simp [natDigitsF, h10]
  · rw [natDigits]
    simp [natDigitsF, h10]

theorem digitChar_inj (a b : Nat) (ha : a < 10) (hb : b < 10)
    (h : Nat.digitChar a = Nat.digitChar b) : a = b := by
  interval_cases a <;> interval_cases b <;> simp_all <;> exact absurd h (by decide)

theorem natDigits_inj : ∀ (a b : Nat), natDigits a = natDigits b → a = b := by
  intro a
  induction a using Nat.strong_induction_on with
  | _ a ih =>
    intro b h
    by_cases ha : a < 10
    · by_cases hb : b < 10
      · rw [natDigits, natDigits] at h
        simp only [natDigitsF, if_pos ha, if_pos hb, List.cons.injEq] at h
        exact digitChar_inj a b ha hb h.1
      · exfalso
        rw [natDigits, natDigits] at h
        simp only [natDigitsF, if_pos ha, if_neg hb,
          natDigitsF_eq (b / 10) b (by omega)] at h
        have := congrArg List.length h
        simp only [List.length_singleton, List.length_append] at this
        have hne := natDigits_ne_nil (b / 10)
        cases hd : natDigits (b / 10) with
        | nil => exact hne hd
        | cons x xs => rw [hd] at this; simp at this
    · by_cases hb : b < 10
      · exfalso
        rw [natDigits, natDigits] at h
        simp only [natDigitsF, if_neg ha, if_pos hb,
          natDigitsF_eq (a / 10) a (by omega)] at h
        have := congrArg List.length h
        simp only [List.length_singleton, List.length_append] at this
        have hne := natDigits_ne_nil (a / 10)
        cases hd : natDigits (a / 10) with
        | nil => exact hne hd
        | cons x xs => rw [hd] at this; simp at this
      · rw [natDigits, natDigits] at h
        simp only [natDigitsF, if_neg ha, if_neg hb,
          natDigitsF_eq (a / 10) a (by omega), natDigitsF_eq (b / 10) b (by omega)] at h
        obtain ⟨h1, h2⟩ := List.append_inj' h (by simp)
        have hmod : a % 10 = b % 10 := by
          have hx : Nat.digitChar (a % 10) = Nat.digitChar (b % 10) := by
            simpa using h2
          exact digitChar_inj _ _ (Nat.mod_lt a (by omega)) (Nat.mod_lt b (by omega)) hx
        have hdiv : a / 10 = b / 10 :=
          ih (a / 10) (Nat.div_lt_self (by omega) (by omega)) (b / 10) h1
        have h10a := Nat.div_add_mod a 10
        have h10b := Nat.div_add_mod b 10
        omega

theorem tokStr_inj (i j : Nat) (h : tokStr i = tokStr j) : i = j := by
  rw [tokStr, tokStr] at h
  obtain ⟨h1, _⟩ := List.append_inj' h (by simp)
  have h2 := List.append_cancel_left h1
  exact natDigits_inj i j h2

theorem tok_alphanum : ∀ (n : Nat) (c : Char), c ∈ tokStr n → c.isAlphanum = true := by
  intro n c hc
  rw [tokStr] at hc
  simp only [List.append_assoc, List.mem_append] at hc
  rcases hc with hc | hc | hc
  · have hall : ∀ x ∈ "MATHITEM".data, Char.isAlphanum x = true := by decide
    exact hall c hc
  · have := natDigits_digit n c hc
    simp [Char.isAlphanum, this]
  · have hall : ∀ x ∈ "END".data, Char.isAlphanum x = true := by decide
    exact hall c hc

/-- C3 (amended): every placeholder token comes from a monotonically
increasing counter that starts at `0` in each render (the entry ids are
exactly `tokStr 0, ..., tokStr (k-1)` in order), distinct counter values give
distinct tokens, and tokens consist of alphanumeric characters only.  The
original claim's final conjunct — that a generated token can never occur
verbatim elsewhere in the working text — is false (see the counterexample):
it fails when the raw input itself contains token-shaped text. -/
theorem c3_token_invariants :
    (∀ text : Chars, (extractAll text).2.2.map Entry.id
        = (List.range (extractAll text).2.2.length).map tokStr)
    ∧ (∀ i j : Nat, i ≠ j → tokStr i ≠ tokStr j)
    ∧ (∀ (n : Nat) (c : Char), c ∈ tokStr n → c.isAlphanum = true) :=
  ⟨extract_ids, fun _ _ hne he => hne (tokStr_inj _ _ he), tok_alphanum⟩

/-- Witness for `c3_token_invariants` at concrete tokens and characters. -/
theorem c3_token_invariants_witness :
    tokStr 0 ≠ tokStr 1 ∧ Char.isAlphanum 'M' = true :=
  ⟨c3_token_invariants.2.1 0 1 (by decide),
   c3_token_invariants.2.2 0 'M' (by decide)⟩

/-- C8: the renderer is deterministic once the two external transforms are
fixed (equal inputs give equal outputs), and stateless across calls: every
invocation numbers its entries from `0` independently — the ids of any call's
entry list are `tokStr 0, ..., tokStr (k-1)`, with no state shared between
invocations (the embedding takes counter and table as per-call locals,
exactly as the source declares them inside the component body). -/
theorem c8_deterministic_stateless :
    (∀ md kat (t1 t2 : Chars), t1 = t2 → htmlContent md kat t1 = htmlContent md kat t2)
    ∧ ∀ text : Chars, (extractAll text).2.2.map Entry.id
        = (List.range (extractAll text).2.2.length).map tokStr :=
  ⟨fun _ _ _ _ h => h ▸ rfl, extract_ids⟩

/-- Witness for `c8_deterministic_stateless` at a concrete repeated call. -/
theorem c8_deterministic_stateless_witness :
    htmlContent (fun s => s) (fun _ _ => Except.ok []) "$x$ and $y$".data
      = htmlContent (fun s => s) (fun _ _ => Except.ok []) "$x$ and $y$".data :=
  c8_deterministic_stateless.1 (fun s => s) (fun _ _ => Except.ok [])
    "$x$ and $y$".data "$x$ and $y$".data rfl

theorem normalizeList_mem :
    ∀ (xs : List JVal) (i : Nat) (ys : List (Option QuizQuestion)),
      normalizeList i xs = .ok ys → ∀ y ∈ ys, ∃ k x, normalizeItem k x = .ok y := by
  intro xs
  induction xs with
  | nil =>
    intro i ys h y hy
    simp only [normalizeList] at h
    cases h
    simp at hy
  | cons x xs ih =>
    intro i ys h y hy
    simp only [normalizeList, bind, Except.bind] at h
    cases h1 : normalizeItem i x with
    | error e => rw [h1] at h; exact absurd h (by simp)
    | ok y0 =>
      rw [h1] at h
      cases h2 : normalizeList (i + 1) xs with
      | error e => rw [h2] at h; exact absurd h (by simp)
      | ok ys0 =>
        rw [h2] at h
        simp only [pure, Except.pure, Except.ok.injEq] at h
        subst h
        rcases List.mem_cons.1 hy with rfl | hy'
        · exact ⟨i, x, h1⟩
        · exact ih (i + 1) ys0 h2 y hy'

theorem normalizeItem_shape (k : Nat) (x : JVal) (q : QuizQuestion)
    (h : normalizeItem k x = .ok (some q)) :
    (∃ n : Int, q.id = JVal.num n)
    ∧ (∃ s, q.answer = JVal.str s)
    ∧ (∃ s, q.subject = JVal.str s) := by
  cases x with
  | obj fields =>
    simp only [normalizeItem, bind, Except.bind] at h
    cases hs : mapSubject (objGet (.obj fields) "subject") with
    | error e => rw [hs] at h; exact absurd h (by simp)
    | ok subj =>
      rw [hs] at h
      simp only [pure, Except.pure, Except.ok.injEq, Option.some.injEq] at h
      subst h
      exact ⟨⟨_, rfl⟩, ⟨_, rfl⟩, ⟨_, rfl⟩⟩
  | arr elems =>
    simp only [normalizeItem, bind, Except.bind] at h
    cases hs : mapSubject (objGet (.arr elems) "subject") with
    | error e => rw [hs] at h; exact absurd h (by simp)
    | ok subj =>
      rw [hs] at h
      simp only [pure, Except.pure, Except.ok.injEq, Option.some.injEq] at h
      subst h
      exact ⟨⟨_, rfl⟩, ⟨_, rfl⟩, ⟨_, rfl⟩⟩
  | null => simp [normalizeItem, pure, Except.pure] at h
  | undefined => simp [normalizeItem, pure, Except.pure] at h
  | bool b => simp [normalizeItem, pure, Except.pure] at h
  | num n => simp [normalizeItem, pure, Except.pure] at h
  | str s => simp [normalizeItem, pure, Except.pure] at h

theorem except_bind_ok {α β : Type} (x : Except Unit α) (f : α → Except Unit β) (b : β)
    (h : x >>= f = .ok b) : ∃ a, x = .ok a ∧ f a = .ok b := by
  cases x with
  | error e => exact absurd h (by simp [Bind.bind, Except.bind])
  | ok a => exact ⟨a, rfl, by simpa [Bind.bind, Except.bind] using h⟩

theorem normalizeData_mem (j : JVal) (l : List QuizQuestion) (h : normalizeData j = .ok l)
    (q : QuizQuestion) (hq : q ∈ l) :
    jsTruthy q.question = true
    ∧ (∃ n : Int, q.id = JVal.num n)
    ∧ (∃ s, q.answer = JVal.str s)
    ∧ (∃ s, q.subject = JVal.str s) := by
  unfold normalizeData at h
  obtain ⟨qv, h1, h2⟩ := except_bind_ok _ _ _ h
  dsimp only at h2
  obtain ⟨mapped, hm, hp⟩ := except_bind_ok _ _ _ h2
  have hl : l = (mapped.filterMap id).filter fun q => jsTruthy q.question := by
    simpa [pure, Except.pure] using hp.symm
  subst hl
  have hfil := List.mem_filter.1 hq
  refine ⟨hfil.2, ?_⟩
  obtain ⟨a, ha, hid⟩ := List.mem_filterMap.1 hfil.1
  obtain rfl : a = some q := by
    cases a with
    | none => simp at hid
    | some b => simp_all
  obtain ⟨k, x, hx⟩ := normalizeList_mem _ 0 mapped hm (some q) ha
  exact normalizeItem_shape k x q hx

/-- C10 counterexample: a successful fetch of the payload
`{"questions": [{"question": 5}]}` resolves (not with the fallback) to a
one-element list whose `question` field is the number `5` — a truthy value
kept by the filter, but not a string, because `normalizeData` never coerces
the question field with `String()`. -/
theorem c10_counterexample :
    (fetchQuestions (.resp true (some (JVal.obj
        [("questions", JVal.arr [JVal.obj [("question", JVal.num 5)]])])))).map
        (fun q => q.question) = [JVal.num 5]
    ∧ isStr (JVal.num 5) = false :=
  ⟨rfl, rfl⟩

/-- C10 (amended): `fetchQuestions` never rejects — network failure, a non-ok
response, invalid JSON, a TypeError thrown inside `normalizeData`, and data
normalizing to zero valid questions all resolve to the one-element fallback
list — and on every outcome the resolved list is non-empty and each element
has a numeric id, string `answer` and `subject` fields, and a truthy (though
not necessarily string-typed) `question` field. -/
theorem c10_fetch_fallback :
    fetchQuestions .netFail = FALLBACK_DATA
    ∧ (∀ b, fetchQuestions (.resp false b) = FALLBACK_DATA)
    ∧ fetchQuestions (.resp true none) = FALLBACK_DATA
    ∧ (∀ o, fetchQuestions o ≠ [])
    ∧ (∀ o q, q ∈ fetchQuestions o →
        jsTruthy q.question = true
        ∧ (∃ n : Int, q.id = JVal.num n)
        ∧ (∃ s, q.answer = JVal.str s)
        ∧ (∃ s, q.subject = JVal.str s)) := by
  have hfb : ∀ q, q ∈ FALLBACK_DATA →
      jsTruthy q.question = true
      ∧ (∃ n : Int, q.id = JVal.num n)
      ∧ (∃ s, q.answer = JVal.str s)
      ∧ (∃ s, q.subject = JVal.str s) := by
    intro q hqm
    have : q = fb0 := by simpa [FALLBACK_DATA] using hqm
    subst this
    exact ⟨rfl, ⟨1, rfl⟩, ⟨_, rfl⟩, ⟨_, rfl⟩⟩
  refine ⟨rfl, fun b => rfl, rfl, ?_, ?_⟩
  · intro o
    cases o with
    | netFail => simp [fetchQuestions, FALLBACK_DATA]
    | resp ok body =>
      cases ok with
      | false => simp [fetchQuestions, FALLBACK_DATA]
      | true =>
        cases body with
        | none => simp [fetchQuestions, FALLBACK_DATA]
        | some j =>
          simp only [fetchQuestions]
          cases hn : normalizeData j with
          | error e => simp [FALLBACK_DATA]
          | ok L =>
            cases L with
            | nil => simp [FALLBACK_DATA]
            | cons a as => simp
  · intro o q hq
    cases o with
    | netFail => exact hfb q hq
    | resp ok body =>
      cases ok with
      | false => exact hfb q hq
      | true =>
        cases body with
        | none => exact hfb q hq
        | some j =>
          simp only [fetchQuestions] at hq
          cases hn : normalizeData j with
          | error e => rw [hn] at hq; exact hfb q hq
          | ok L =>
            rw [hn] at hq
            dsimp only at hq
            by_cases he : L.isEmpty = true
            · rw [if_pos he] at hq
              exact hfb q hq
            · rw [if_neg he] at hq
              exact normalizeData_mem j L hn q hq

/-- Witness for `c10_fetch_fallback`: the fallback element of a failed fetch
satisfies every field property. -/
theorem c10_fetch_fallback_witness :
    fetchQuestions FetchOutcome.netFail ≠ []
    ∧ jsTruthy fb0.question = true
    ∧ (∃ n : Int, fb0.id = JVal.num n)
    ∧ (∃ s, fb0.answer = JVal.str s)
    ∧ (∃ s, fb0.subject = JVal.str s) :=
  ⟨c10_fetch_fallback.2.2.2.1 FetchOutcome.netFail,
   c10_fetch_fallback.2.2.2.2 FetchOutcome.netFail fb0 (by
     show fb0 ∈ FALLBACK_DATA
     simp [FALLBACK_DATA])⟩

theorem tok_cons (n : Nat) :
    tokStr n = 'M' :: ("ATHITEM".data ++ (natDigits n ++ "END".data)) := rfl

theorem tok_cons2 (n : Nat) :
    tokStr n = 'M' :: 'A' :: ("THITEM".data ++ (natDigits n ++ "END".data)) := rfl

theorem tokChar_tok (n : Nat) (c : Char) (hc : c ∈ tokStr n) : tokChar c = true := by
  rw [tokStr] at hc
  simp only [List.append_assoc, List.mem_append] at hc
  rcases hc with hc | hc | hc
  · have hall : ∀ x ∈ "MATHITEM".data, tokChar x = true := by decide
    exact hall c hc
  · have := natDigits_digit n c hc
    simp [tokChar, this]
  · have hall : ∀ x ∈ "END".data, tokChar x = true := by decide
    exact hall c hc

theorem isPre_false_of_head (a : Char) (as : Chars) (b : Char) (bs : Chars) (h : a ≠ b) :
    (a :: as).isPrefixOf (b :: bs) = false := by
  show ((a == b) && as.isPrefixOf bs) = false
  have hab : (a == b) = false := beq_eq_false_iff_ne.mpr h
  simp [hab]

theorem isPre_append_same : ∀ (p a b : Chars),
    ((p ++ a).isPrefixOf (p ++ b)) = a.isPrefixOf b := by
  intro p
  induction p with
  | nil => intro a b; rfl
  | cons x xs ih =>
    intro a b
    show ((x == x) && (xs ++ a).isPrefixOf (xs ++ b)) = a.isPrefixOf b
    simp [ih]

theorem nd_not_pre : ∀ (d1 d2 : Chars),
    (∀ c ∈ d1, c.isDigit = true) → (∀ c ∈ d2, c.isDigit = true) → d1 ≠ d2 →
    ∀ Z : Chars, (d1 ++ "END".data).isPrefixOf (d2 ++ ("END".data ++ Z)) = false := by
  intro d1
  induction d1 with
  | nil =>
    intro d2 h1 h2 hne Z
    cases d2 with
    | nil => exact absurd rfl hne
    | cons c cs =>
      have hc : c.isDigit = true := h2 c (List.mem_cons_self _ _)
      have hce : 'E' ≠ c := fun e => by rw [← e] at hc; exact absurd hc (by decide)
      show ("END".data).isPrefixOf (c :: (cs ++ ("END".data ++ Z))) = false
      exact isPre_false_of_head 'E' _ c _ hce
  | cons a as ih =>
    intro d2 h1 h2 hne Z
    have ha : a.isDigit = true := h1 a (List.mem_cons_self _ _)
    cases d2 with
    | nil =>
      have hae : a ≠ 'E' := fun e => by rw [e] at ha; exact absurd ha (by decide)
      show (a :: (as ++ "END".data)).isPrefixOf ('E' :: ("ND".data ++ Z)) = false
      exact isPre_false_of_head a _ 'E' _ hae
    | cons b bs =>
      by_cases hab : a = b
      · subst hab
        have has : as ≠ bs := fun e => hne (by rw [e])
        have hih := ih bs (fun c hc => h1 c (List.mem_cons_of_mem _ hc))
          (fun c hc => h2 c (List.mem_cons_of_mem _ hc)) has Z
        show ((a == a) && (as ++ "END".data).isPrefixOf (bs ++ ("END".data ++ Z))) = false
        rw [hih]
        simp
      · show (a :: (as ++ "END".data)).isPrefixOf (b :: (bs ++ ("END".data ++ Z))) = false
        exact isPre_false_of_head a _ b _ hab

theorem tok_not_pre_tok (k j : Nat) (h : k ≠ j) (Z : Chars) :
    (tokStr k).isPrefixOf (tokStr j ++ Z) = false := by
  have e1 : tokStr k = "MATHITEM".data ++ (natDigits k ++ "END".data) := by
    rw [tokStr, List.append_assoc]
  have e2 : tokStr j ++ Z = "MATHITEM".data ++ (natDigits j ++ ("END".data ++ Z)) := by
    rw [tokStr]
    simp [List.append_assoc]
  rw [e1, e2, isPre_append_same]
  exact nd_not_pre _ _ (natDigits_digit k) (natDigits_digit j)
    (fun he => h (natDigits_inj _ _ he)) Z

theorem tok_not_pre_of_head (k : Nat) (b : Char) (hb : b ≠ 'M') (S : Chars) :
    (tokStr k).isPrefixOf (b :: S) = false := by
  rw [tok_cons]
  exact isPre_false_of_head 'M' _ b S (fun e => hb e.symm)

theorem suffix_split : ∀ (a b t : Chars), t <:+ a ++ b →
    t <:+ b ∨ ∃ a', a' <:+ a ∧ a' ≠ [] ∧ t = a' ++ b := by
  intro a
  induction a with
  | nil =>
    intro b t h
    left
    simpa using h
  | cons x xs ih =>
    intro b t h
    rw [List.cons_append, List.suffix_cons_iff] at h
    rcases h with h | h
    · right
      exact ⟨x :: xs, List.suffix_rfl, by simp, by rw [h, List.cons_append]⟩
    · rcases ih b t h with h' | ⟨a', ha1, ha2, ha3⟩
      · left; exact h'
      · right; exact ⟨a', ha1.trans (List.suffix_cons x xs), ha2, ha3⟩

theorem isPre_false_of_head2 (a b : Char) (as : Chars) (x : Char) (bs : Chars) (h : b ≠ x) :
    (a :: b :: as).isPrefixOf (a :: x :: bs) = false := by
  show ((a == a) && ((b :: as).isPrefixOf (x :: bs))) = false
  rw [isPre_false_of_head b as x bs h]
  simp

theorem np_tok (j k : Nat) (t : Chars) (hsuf : t <:+ tokStr j) (hne : t ≠ tokStr j)
    (hnil : t ≠ []) (X : Chars) : (tokStr k).isPrefixOf (t ++ X) = false := by
  have e1 : tokStr j = "MATHITEM".data ++ (natDigits j ++ "END".data) := by
    rw [tokStr, List.append_assoc]
  rw [e1] at hsuf
  rcases suffix_split _ _ _ hsuf with h | ⟨a', ha1, ha2, ha3⟩
  · rcases suffix_split _ _ _ h with h' | ⟨d', hd1, hd2, hd3⟩
    · have hmem : t ∈ ("END".data).tails := (List.mem_tails _ _).2 h'
      have hcases : t = "END".data ∨ t = "ND".data ∨ t = "D".data ∨ t = [] := by
        have : ("END".data).tails
            = ["END".data, "ND".data, "D".data, []] := by decide
        rw [this] at hmem
        simpa using hmem
      rcases hcases with rfl | rfl | rfl | rfl
      · exact tok_not_pre_of_head k 'E' (by decide) _
      · exact tok_not_pre_of_head k 'N' (by decide) _
      · exact tok_not_pre_of_head k 'D' (by decide) _
      · exact absurd rfl hnil
    · obtain ⟨c, cs, rfl⟩ : ∃ c cs, d' = c :: cs := by
        cases d' with
        | nil => exact absurd rfl hd2
        | cons c cs => exact ⟨c, cs, rfl⟩
      have hc : c.isDigit = true := natDigits_digit j c (hd1.subset (List.mem_cons_self _ _))
      have hcM : c ≠ 'M' := fun e => by rw [e] at hc; exact absurd hc (by decide)
      rw [hd3, List.cons_append, List.cons_append]
      exact tok_not_pre_of_head k c hcM _
  · have hmem : a' ∈ ("MATHITEM".data).tails := (List.mem_tails _ _).2 ha1
    have htails : ("MATHITEM".data).tails
        = ["MATHITEM".data, "ATHITEM".data, "THITEM".data, "HITEM".data, "ITEM".data,
           "TEM".data, "EM".data, "M".data, []] := by decide
    rw [htails] at hmem
    simp only [List.mem_cons, List.not_mem_nil, or_false] at hmem
    rcases hmem with rfl | rfl | rfl | rfl | rfl | rfl | rfl | rfl | rfl
    · exact absurd (ha3.trans (by rw [← e1])) hne
    · rw [ha3, List.cons_append, List.cons_append]
      exact tok_not_pre_of_head k 'A' (by decide) _
    · rw [ha3, List.cons_append, List.cons_append]
      exact tok_not_pre_of_head k 'T' (by decide) _
    · rw [ha3, List.cons_append, List.cons_append]
      exact tok_not_pre_of_head k 'H' (by decide) _
    · rw [ha3, List.cons_append, List.cons_append]
      exact tok_not_pre_of_head k 'I' (by decide) _
    · rw [ha3, List.cons_append, List.cons_append]
      exact tok_not_pre_of_head k 'T' (by decide) _
    · rw [ha3, List.cons_append, List.cons_append]
      exact tok_not_pre_of_head k 'E' (by decide) _
    · -- a' = "M": the inner 'M' at position 7; mismatch at the second character
      rw [ha3]
      cases hnd : natDigits j with
      | nil => exact absurd hnd (natDigits_ne_nil j)
      | cons c cs =>
        have hc : c.isDigit = true := natDigits_digit j c (by rw [hnd]; exact List.mem_cons_self _ _)
        have hcA : 'A' ≠ c := fun e => by rw [← e] at hc; exact absurd hc (by decide)
        rw [tok_cons2]
        simp only [List.singleton_append, List.cons_append]
        exact isPre_false_of_head2 'M' 'A' _ c _ hcA
    · exact absurd rfl ha2

theorem replaceAllF_congr (p r : Chars) (hp : p ≠ []) :
    ∀ (n : Nat) (s : Chars), s.length = n → ∀ (f1 f2 : Nat),
      n ≤ f1 → n ≤ f2 → replaceAllF p r f1 s = replaceAllF p r f2 s := by
  intro n
  induction n using Nat.strong_induction_on with
  | _ n ih =>
    intro s hs f1 f2 h1 h2
    cases s with
    | nil => cases f1 <;> cases f2 <;> rfl
    | cons ch rest =>
      subst hs
      cases f1 with
      | zero => simp at h1
      | succ a =>
        cases f2 with
        | zero => simp at h2
        | succ b =>
          have ha : rest.length ≤ a := by simp at h1; omega
          have hb : rest.length ≤ b := by simp at h2; omega
          simp only [replaceAllF]
          by_cases hpre : (p.isPrefixOf (ch :: rest) && !p.isEmpty) = true
          · rw [if_pos hpre, if_pos hpre]
            have hlp : 1 ≤ p.length := by
              cases p with
              | nil => exact absurd rfl hp
              | cons x xs => simp
            have hdl : ((ch :: rest).drop p.length).length ≤ rest.length := by
              simp only [List.length_drop, List.length_cons]
              omega
            rw [ih ((ch :: rest).drop p.length).length
              (by simp only [List.length_cons]; omega) _ rfl a b (by omega) (by omega)]
          · rw [if_neg hpre, if_neg hpre]
            rw [ih rest.length (by simp) rest rfl a b ha hb]

theorem replaceAll_nil (p r : Chars) : replaceAll p r [] = [] := rfl

theorem replaceAll_matchL (p r : Chars) (hp : p ≠ []) (ch : Char) (rest : Chars)
    (hpre : p.isPrefixOf (ch :: rest) = true) :
    replaceAll p r (ch :: rest)
      = r ++ replaceAll p r ((ch :: rest).drop p.length) := by
  have hlp : 1 ≤ p.length := by
    cases p with
    | nil => exact absurd rfl hp
    | cons x xs => simp
  have hne : p.isEmpty = false := by
    cases p with
    | nil => exact absurd rfl hp
    | cons x xs => rfl
  show replaceAllF p r (rest.length + 1) (ch :: rest) = _
  simp only [replaceAllF, hpre, hne, Bool.not_false, Bool.and_true, if_true]
  rw [replaceAllF_congr p r hp ((ch :: rest).drop p.length).length _ rfl rest.length _
    (by simp only [List.length_drop, List.length_cons]; omega) le_rfl]
  rfl

theorem replaceAll_stepL (p r : Chars) (ch : Char) (rest : Chars)
    (hpre : p.isPrefixOf (ch :: rest) = false) :
    replaceAll p r (ch :: rest) = ch :: replaceAll p r rest := by
  show replaceAllF p r (rest.length + 1) (ch :: rest) = _
  simp only [replaceAllF, hpre, Bool.false_and, if_false]
  rfl

theorem tokStr_ne_nil (n : Nat) : tokStr n ≠ [] := by
  rw [tok_cons]
  simp

theorem sl_scan (k j : Nat) (r : Chars) :
    ∀ (t : Chars), t <:+ tokStr j → t ≠ tokStr j →
      ∀ (X : Chars), replaceAll (tokStr k) r (t ++ X) = t ++ replaceAll (tokStr k) r X := by
  intro t
  induction t with
  | nil => intro _ _ X; rfl
  | cons c cs ih =>
    intro hsuf hne X
    have hnp := np_tok j k (c :: cs) hsuf hne (by simp) X
    have hnp' : (tokStr k).isPrefixOf (c :: (cs ++ X)) = false := by
      rw [← List.cons_append]
      exact hnp
    rw [List.cons_append, replaceAll_stepL _ _ _ _ hnp']
    have hsuf' : cs <:+ tokStr j := (List.suffix_cons c cs).trans hsuf
    have hlen : cs.length < (tokStr j).length := by
      have h1 : (c :: cs).length ≤ (tokStr j).length := hsuf.length_le
      simp only [List.length_cons] at h1
      omega
    have hne' : cs ≠ tokStr j := fun e => by rw [e] at hlen; omega
    rw [ih hsuf' hne' X]
    rfl

theorem WFp_tail (p : Piece) (ps : List Piece) (h : WFp (p :: ps)) : WFp ps :=
  fun f hf => h f (List.mem_cons_of_mem _ hf)

theorem WFp_map_replP (k : Nat) (r : Chars) (ps : List Piece) (h : WFp ps) (hr : 'M' ∉ r) :
    WFp (ps.map (replP k r)) := by
  intro f hf
  rw [List.mem_map] at hf
  obtain ⟨p, hp, he⟩ := hf
  cases p with
  | frag g =>
    have : g = f := by simpa [replP] using he
    exact this ▸ h g hp
  | tokp j =>
    by_cases hj : j = k
    · have : r = f := by simpa [replP, hj] using he
      exact this ▸ hr
    · exact absurd he (by simp [replP, hj])

theorem toks_map_replP (k : Nat) (r : Chars) (ps : List Piece) (m : Nat)
    (hm : m ∈ toksOf (ps.map (replP k r))) : m ∈ toksOf ps ∧ m ≠ k := by
  rw [toksOf, List.mem_filterMap] at hm
  obtain ⟨p', hp', hs⟩ := hm
  rw [List.mem_map] at hp'
  obtain ⟨p, hp, he⟩ := hp'
  cases p with
  | frag g =>
    rw [← he] at hs
    exact absurd hs (by simp [replP])
  | tokp j =>
    by_cases hj : j = k
    · rw [← he] at hs
      exact absurd hs (by simp [replP, hj])
    · have : p' = Piece.tokp j := by simp [replP, hj] at he; exact he.symm
      rw [this] at hs
      have hmj : j = m := by simpa using hs
      subst hmj
      exact ⟨by rw [toksOf, List.mem_filterMap]; exact ⟨Piece.tokp j, hp, rfl⟩, hj⟩

theorem replaceAll_pieces (k : Nat) (r : Chars) :
    ∀ (n : Nat) (ps : List Piece), (flat ps).length + ps.length = n → WFp ps →
      replaceAll (tokStr k) r (flat ps) = flat (ps.map (replP k r)) := by
  intro n
  induction n using Nat.strong_induction_on with
  | _ n ih =>
    intro ps hn hwf
    cases ps with
    | nil => rfl
    | cons p rest =>
      cases p with
      | frag f =>
        cases f with
        | nil =>
          show replaceAll (tokStr k) r (flat (Piece.frag [] :: rest)) = _
          have he : flat (Piece.frag [] :: rest) = flat rest := rfl
          rw [he]
          rw [ih ((flat rest).length + rest.length) (by subst hn; simp [flat, Piece.flat1]) rest rfl
            (WFp_tail _ _ hwf)]
          rfl
        | cons ch f' =>
          have hch : ch ≠ 'M' := by
            intro e
            exact hwf (ch :: f') (List.mem_cons_self _ _) (e ▸ List.mem_cons_self _ _)
          have he : flat (Piece.frag (ch :: f') :: rest) = ch :: flat (Piece.frag f' :: rest) := rfl
          rw [he, replaceAll_stepL _ _ _ _ (tok_not_pre_of_head k ch hch _)]
          have hwf' : WFp (Piece.frag f' :: rest) := by
            intro g hg
            rcases List.mem_cons.1 hg with h | hg'
            · have h2 : g = f' := Piece.frag.inj h
              rw [h2]
              exact fun hm => hwf (ch :: f') (List.mem_cons_self _ _) (List.mem_cons_of_mem _ hm)
            · exact hwf g (List.mem_cons_of_mem _ hg')
          rw [ih ((flat (Piece.frag f' :: rest)).length + (Piece.frag f' :: rest).length)
            (by subst hn; simp [flat, Piece.flat1]) _ rfl hwf']
          rfl
      | tokp j =>
        by_cases hjk : j = k
        · subst hjk
          have he : flat (Piece.tokp j :: rest) = tokStr j ++ flat rest := rfl
          rw [he]
          obtain ⟨m0, mrest, hm⟩ : ∃ m0 mrest, tokStr j = m0 :: mrest := by
            rw [tok_cons]; exact ⟨_, _, rfl⟩
          rw [hm, List.cons_append,
            replaceAll_matchL _ _ (by rw [← hm]; exact tokStr_ne_nil j) _ _
              (by rw [← List.cons_append, ← hm]; exact isPre_app_self _ _)]
          rw [← List.cons_append, ← hm, List.drop_left]
          rw [ih ((flat rest).length + rest.length)
            (by subst hn; simp [flat, Piece.flat1]; omega) rest rfl (WFp_tail _ _ hwf)]
          have : replP j r (Piece.tokp j) = Piece.frag r := by simp [replP]
          show r ++ flat (rest.map (replP j r)) = flat ((Piece.tokp j :: rest).map (replP j r))
          rw [List.map_cons, this]
          rfl
        · have he : flat (Piece.tokp j :: rest) = 'M' ::
              (("ATHITEM".data ++ (natDigits j ++ "END".data)) ++ flat rest) := by
            show tokStr j ++ flat rest = _
            rw [tok_cons, List.cons_append]
          have hknj : k ≠ j := fun e => hjk e.symm
          have hpre : (tokStr k).isPrefixOf ('M' ::
              (("ATHITEM".data ++ (natDigits j ++ "END".data)) ++ flat rest)) = false := by
            rw [← List.cons_append, ← tok_cons]
            exact tok_not_pre_tok k j hknj (flat rest)
          rw [he, replaceAll_stepL _ _ _ _ hpre]
          have hsuf : ("ATHITEM".data ++ (natDigits j ++ "END".data)) <:+ tokStr j := by
            rw [tok_cons]
            exact List.suffix_cons 'M' _
          have hlen : ("ATHITEM".data ++ (natDigits j ++ "END".data)).length
              < (tokStr j).length := by
            rw [tok_cons]
            simp
          have hne : ("ATHITEM".data ++ (natDigits j ++ "END".data)) ≠ tokStr j := by
            intro e
            rw [e] at hlen
            omega
          rw [sl_scan k j r _ hsuf hne (flat rest)]
          rw [ih ((flat rest).length + rest.length)
            (by subst hn; simp [flat, Piece.flat1, tok_cons]; omega) rest rfl (WFp_tail _ _ hwf)]
          have hrp : replP k r (Piece.tokp j) = Piece.tokp j := by simp [replP, hjk]
          show 'M' :: (("ATHITEM".data ++ (natDigits j ++ "END".data)) ++ flat (rest.map (replP k r)))
              = flat ((Piece.tokp j :: rest).map (replP k r))
          rw [List.map_cons, hrp]
          show _ = tokStr j ++ flat (rest.map (replP k r))
          rw [tok_cons, List.cons_append]
          rfl

theorem flat_Mfree : ∀ (ps : List Piece), WFp ps → (∀ m, m ∉ toksOf ps) → 'M' ∉ flat ps := by
  intro ps
  induction ps with
  | nil => intro _ _ h; simp [flat] at h
  | cons p rest ih =>
    intro hwf htk hmem
    cases p with
    | frag f =>
      have : flat (Piece.frag f :: rest) = f ++ flat rest := rfl
      rw [this, List.mem_append] at hmem
      rcases hmem with hm | hm
      · exact hwf f (List.mem_cons_self _ _) hm
      · exact ih (WFp_tail _ _ hwf)
          (fun m hmm => htk m (by rw [toksOf, List.filterMap_cons]; simpa [toksOf] using hmm))
          hm
    | tokp j =>
      exact htk j (by rw [toksOf, List.filterMap_cons]; simp)

theorem restore_Mfree (kat : Chars → Bool → Except Chars Chars)
    (hkat : ∀ m b, ∃ r, kat m b = Except.ok r ∧ 'M' ∉ r) :
    ∀ (es : List Entry) (ps : List Piece), WFp ps →
      (∀ e ∈ es, ∃ n, e.id = tokStr n) →
      (∀ m, m ∈ toksOf ps → ∃ e ∈ es, e.id = tokStr m) →
      'M' ∉ restore kat es (flat ps) := by
  intro es
  induction es with
  | nil =>
    intro ps hwf _ hcov
    show 'M' ∉ flat ps
    refine flat_Mfree ps hwf (fun m hm => ?_)
    obtain ⟨e, he, _⟩ := hcov m hm
    exact absurd he (List.not_mem_nil e)
  | cons e rest ih =>
    intro ps hwf hids hcov
    obtain ⟨n, hen⟩ := hids e (List.mem_cons_self _ _)
    obtain ⟨r, hkr, hrM⟩ := hkat e.math e.type.isBlock
    have hstep : restore kat (e :: rest) (flat ps)
        = restore kat rest (replaceAll e.id r (flat ps)) := by
      simp only [restore, hkr]
    rw [hstep, hen, replaceAll_pieces n r ((flat ps).length + ps.length) ps rfl hwf]
    refine ih (ps.map (replP n r)) (WFp_map_replP n r ps hwf hrM)
      (fun e' he' => hids e' (List.mem_cons_of_mem _ he')) ?_
    intro m hm
    obtain ⟨hm', hmn⟩ := toks_map_replP n r ps m hm
    obtain ⟨e', he', hid⟩ := hcov m hm'
    rcases List.mem_cons.1 he' with rfl | he''
    · exact absurd (tokStr_inj m n (hid ▸ hen)) hmn
    · exact ⟨e', he'', hid⟩

theorem isPre_head_eq (a : Char) (p : Chars) (b : Char) (s : Chars)
    (h : (a :: p).isPrefixOf (b :: s) = true) : a = b := by
  have h' : ((a == b) && p.isPrefixOf s) = true := h
  rw [Bool.and_eq_true] at h'
  exact eq_of_beq h'.1

theorem WFp_frag_cons (ch : Char) (f : Chars) (rest : List Piece)
    (h : WFp (Piece.frag (ch :: f) :: rest)) : WFp (Piece.frag f :: rest) := by
  intro g hg
  rcases List.mem_cons.1 hg with hh | hg'
  · have h2 : g = f := Piece.frag.inj hh
    rw [h2]
    exact fun hm => h (ch :: f) (List.mem_cons_self _ _) (List.mem_cons_of_mem _ hm)
  · exact h g (List.mem_cons_of_mem _ hg')

theorem toksOf_frag (f : Chars) (rest : List Piece) :
    toksOf (Piece.frag f :: rest) = toksOf rest := by
  simp [toksOf]

theorem toksOf_tok (j : Nat) (rest : List Piece) :
    toksOf (Piece.tokp j :: rest) = j :: toksOf rest := by
  simp [toksOf]

theorem tokTail_chars (j : Nat) :
    ∀ x ∈ ("ATHITEM".data ++ (natDigits j ++ "END".data)), tokChar x = true :=
  fun x hx => tokChar_tok j x (by rw [tok_cons]; exact List.mem_cons_of_mem _ hx)

theorem drop_pieces :
    ∀ (n : Nat) (d : Chars) (ps : List Piece), d.length + ps.length = n →
      (∀ x ∈ d, tokChar x = false) →
      d.isPrefixOf (flat ps) = true → WFp ps →
      ∃ ps', (flat ps).drop d.length = flat ps' ∧ WFp ps' ∧ ps'.length ≤ ps.length
        ∧ (∀ m, m ∈ toksOf ps' → m ∈ toksOf ps) := by
  intro n
  induction n using Nat.strong_induction_on with
  | _ n ih =>
    intro d ps hn hd hpre hwf
    cases d with
    | nil => exact ⟨ps, by simp, hwf, le_rfl, fun m hm => hm⟩
    | cons x d' =>
      cases ps with
      | nil => exact absurd hpre (by simp [flat, List.isPrefixOf])
      | cons p rest =>
        cases p with
        | frag f =>
          cases f with
          | nil =>
            have he : flat (Piece.frag [] :: rest) = flat rest := rfl
            rw [he] at hpre
            obtain ⟨ps', h1, h2, h3, h4⟩ := ih ((x :: d').length + rest.length)
              (by subst hn; simp) (x :: d') rest rfl hd hpre (WFp_tail _ _ hwf)
            refine ⟨ps', by rw [he]; exact h1, h2, by simp; omega, ?_⟩
            intro m hm
            rw [toksOf_frag]
            exact h4 m hm
          | cons ch f' =>
            have he : flat (Piece.frag (ch :: f') :: rest)
                = ch :: flat (Piece.frag f' :: rest) := rfl
            rw [he] at hpre
            have hxch : x = ch := isPre_head_eq x d' ch _ hpre
            have hpre' : d'.isPrefixOf (flat (Piece.frag f' :: rest)) = true := by
              have h' : ((x == ch) && d'.isPrefixOf (flat (Piece.frag f' :: rest))) = true := hpre
              rw [Bool.and_eq_true] at h'
              exact h'.2
            obtain ⟨ps', h1, h2, h3, h4⟩ := ih (d'.length + (Piece.frag f' :: rest).length)
              (by subst hn; simp) d' (Piece.frag f' :: rest) rfl
              (fun y hy => hd y (List.mem_cons_of_mem _ hy)) hpre' (WFp_frag_cons ch f' rest hwf)
            refine ⟨ps', ?_, h2, by simpa using h3, ?_⟩
            · rw [he]
              show (ch :: flat (Piece.frag f' :: rest)).drop (d'.length + 1) = flat ps'
              rw [List.drop_succ_cons]
              exact h1
            · intro m hm
              rw [toksOf_frag]
              have := h4 m hm
              rwa [toksOf_frag] at this
        | tokp j =>
          exfalso
          have he : flat (Piece.tokp j :: rest)
              = 'M' :: (("ATHITEM".data ++ (natDigits j ++ "END".data)) ++ flat rest) := by
            show tokStr j ++ flat rest = _
            rw [tok_cons, List.cons_append]
          rw [he] at hpre
          have hxM : x = 'M' := isPre_head_eq x d' 'M' _ hpre
          have := hd x (List.mem_cons_self _ _)
          rw [hxM] at this
          exact absurd this (by decide)

theorem findClose_pieces (c0 : Char) (cd' : Chars)
    (hcd : ∀ x ∈ (c0 :: cd'), tokChar x = false) :
    ∀ (n : Nat) (t : Chars) (ps : List Piece), (t ++ flat ps).length + ps.length = n →
      (∀ x ∈ t, tokChar x = true) → WFp ps →
      ∀ (content after : Chars),
        findClose (c0 :: cd') (t ++ flat ps) = some (content, after) →
        ∃ psA, after = flat psA ∧ WFp psA ∧ psA.length ≤ ps.length
          ∧ (∀ m, m ∈ toksOf psA → m ∈ toksOf ps) := by
  intro n
  induction n using Nat.strong_induction_on with
  | _ n ih =>
    intro t ps hn ht hwf content after hfc
    cases t with
    | cons c t' =>
      rw [List.cons_append, findClose] at hfc
      by_cases hpre : (c0 :: cd').isPrefixOf (c :: (t' ++ flat ps)) = true
      · exfalso
        have hc0 : c0 = c := isPre_head_eq c0 cd' c _ hpre
        have h1 := hcd c0 (List.mem_cons_self _ _)
        have h2 := ht c (List.mem_cons_self _ _)
        rw [hc0, h2] at h1
        exact absurd h1 (by decide)
      · rw [if_neg hpre] at hfc
        cases hrec : findClose (c0 :: cd') (t' ++ flat ps) with
        | none => rw [hrec] at hfc; exact absurd hfc (by simp)
        | some pr =>
          obtain ⟨a', b'⟩ := pr
          rw [hrec] at hfc
          simp only [Option.some.injEq, Prod.mk.injEq] at hfc
          obtain ⟨-, rfl⟩ := hfc
          exact ih ((t' ++ flat ps).length + ps.length)
            (by subst hn; simp) t' ps rfl
            (fun y hy => ht y (List.mem_cons_of_mem _ hy)) hwf a' b' hrec
    | nil =>
      cases ps with
      | nil => exact absurd hfc (by simp [flat, findClose])
      | cons p rest =>
        cases p with
        | frag f =>
          cases f with
          | nil =>
            have he : ([] : Chars) ++ flat (Piece.frag [] :: rest) = [] ++ flat rest := rfl
            rw [he] at hfc
            obtain ⟨psA, h1, h2, h3, h4⟩ := ih (([] ++ flat rest).length + rest.length)
              (by subst hn; simp [flat, Piece.flat1]) [] rest rfl (by simp) (WFp_tail _ _ hwf)
              content after hfc
            refine ⟨psA, h1, h2, by simp; omega, ?_⟩
            intro m hm
            rw [toksOf_frag]
            exact h4 m hm
          | cons ch f' =>
            have he : ([] : Chars) ++ flat (Piece.frag (ch :: f') :: rest)
                = ch :: ([] ++ flat (Piece.frag f' :: rest)) := rfl
            rw [he, findClose] at hfc
            by_cases hpre : (c0 :: cd').isPrefixOf (ch :: ([] ++ flat (Piece.frag f' :: rest))) = true
            · rw [if_pos hpre] at hfc
              simp only [Option.some.injEq, Prod.mk.injEq] at hfc
              obtain ⟨-, rfl⟩ := hfc
              have hpre2 : (c0 :: cd').isPrefixOf (flat (Piece.frag (ch :: f') :: rest)) = true := hpre
              obtain ⟨ps', h1, h2, h3, h4⟩ := drop_pieces
                ((c0 :: cd').length + (Piece.frag (ch :: f') :: rest).length)
                (c0 :: cd') (Piece.frag (ch :: f') :: rest) rfl hcd hpre2 hwf
              exact ⟨ps', h1.symm ▸ rfl, h2, h3, h4⟩
            · rw [if_neg hpre] at hfc
              cases hrec : findClose (c0 :: cd') ([] ++ flat (Piece.frag f' :: rest)) with
              | none => rw [hrec] at hfc; exact absurd hfc (by simp)
              | some pr =>
                obtain ⟨a', b'⟩ := pr
                rw [hrec] at hfc
                simp only [Option.some.injEq, Prod.mk.injEq] at hfc
                obtain ⟨-, rfl⟩ := hfc
                obtain ⟨psA, h1, h2, h3, h4⟩ := ih
                  (([] ++ flat (Piece.frag f' :: rest)).length + (Piece.frag f' :: rest).length)
                  (by subst hn; simp [flat, Piece.flat1]) [] (Piece.frag f' :: rest) rfl
                  (by simp) (WFp_frag_cons ch f' rest hwf) a' b' hrec
                refine ⟨psA, h1, h2, by simpa using h3, ?_⟩
                intro m hm
                rw [toksOf_frag]
                have := h4 m hm
                rwa [toksOf_frag] at this
        | tokp j =>
          have he : ([] : Chars) ++ flat (Piece.tokp j :: rest)
              = 'M' :: (("ATHITEM".data ++ (natDigits j ++ "END".data)) ++ flat rest) := by
            show tokStr j ++ flat rest = _
            rw [tok_cons, List.cons_append]
          rw [he, findClose] at hfc
          have hpre : (c0 :: cd').isPrefixOf
              ('M' :: (("ATHITEM".data ++ (natDigits j ++ "END".data)) ++ flat rest)) = false := by
            have h1 := hcd c0 (List.mem_cons_self _ _)
            have hc0 : c0 ≠ 'M' := fun e => by rw [e] at h1; exact absurd h1 (by decide)
            exact isPre_false_of_head c0 _ 'M' _ hc0
          rw [hpre] at hfc
          simp only [Bool.false_eq_true, if_false] at hfc
          cases hrec : findClose (c0 :: cd')
              (("ATHITEM".data ++ (natDigits j ++ "END".data)) ++ flat rest) with
          | none => rw [hrec] at hfc; exact absurd hfc (by simp)
          | some pr =>
            obtain ⟨a', b'⟩ := pr
            rw [hrec] at hfc
            simp only [Option.some.injEq, Prod.mk.injEq] at hfc
            obtain ⟨-, rfl⟩ := hfc
            obtain ⟨psA, h1, h2, h3, h4⟩ := ih
              ((("ATHITEM".data ++ (natDigits j ++ "END".data)) ++ flat rest).length + rest.length)
              (by subst hn; simp [flat, Piece.flat1, tok_cons]; omega)
              ("ATHITEM".data ++ (natDigits j ++ "END".data)) rest rfl
              (tokTail_chars j) (WFp_tail _ _ hwf) a' b' hrec
            refine ⟨psA, h1, h2, by simp; omega, ?_⟩
            intro m hm
            rw [toksOf_tok]
            exact List.mem_cons_of_mem _ (h4 m hm)

theorem replaceMath_pieces (o0 : Char) (od' : Chars) (c0 : Char) (cd' : Chars) (ty : SpanType)
    (ho : ∀ x ∈ (o0 :: od'), tokChar x = false)
    (hc : ∀ x ∈ (c0 :: cd'), tokChar x = false) :
    ∀ (n : Nat) (t : Chars) (ps : List Piece) (c : Nat) (es : List Entry),
      (t ++ flat ps).length + ps.length = n →
      (∀ x ∈ t, tokChar x = true) → WFp ps →
      ∃ psOut,
        (replaceMath (o0 :: od') (c0 :: cd') ty (t ++ flat ps) c es).1 = t ++ flat psOut
        ∧ WFp psOut
        ∧ ∀ m, m ∈ toksOf psOut → m ∈ toksOf ps
            ∨ (c ≤ m ∧ m < (replaceMath (o0 :: od') (c0 :: cd') ty (t ++ flat ps) c es).2.1) := by
  intro n
  induction n using Nat.strong_induction_on with
  | _ n ih =>
    intro t ps c es hn ht hwf
    cases t with
    | cons c1 t' =>
      have hne : o0 ≠ c1 := by
        intro e
        have h1 := ho o0 (List.mem_cons_self _ _)
        have h2 := ht c1 (List.mem_cons_self _ _)
        rw [e, h2] at h1
        exact absurd h1 (by decide)
      have hpre : (o0 :: od').isPrefixOf (c1 :: (t' ++ flat ps)) = false :=
        isPre_false_of_head o0 od' c1 _ hne
      have harg : (c1 :: t') ++ flat ps = c1 :: (t' ++ flat ps) := rfl
      rw [harg, replaceMath_step _ _ ty (by simp) (by simp) c1 (t' ++ flat ps) c es (Or.inl hpre)]
      obtain ⟨psOut, h1, h2, h3⟩ := ih ((t' ++ flat ps).length + ps.length)
        (by subst hn; simp) t' ps c es rfl (fun y hy => ht y (List.mem_cons_of_mem _ hy)) hwf
      refine ⟨psOut, ?_, h2, ?_⟩
      · show c1 :: (replaceMath _ _ ty (t' ++ flat ps) c es).1 = (c1 :: t') ++ flat psOut
        rw [h1]
        rfl
      · intro m hm
        exact h3 m hm
    | nil =>
      cases ps with
      | nil =>
        refine ⟨[], rfl, ?_, ?_⟩
        · intro f hf
          simp at hf
        · intro m hm
          simp [toksOf] at hm
      | cons p rest =>
        cases p with
        | frag f =>
          cases f with
          | nil =>
            obtain ⟨psOut, h1, h2, h3⟩ := ih (([] ++ flat rest).length + rest.length)
              (by subst hn; simp [flat, Piece.flat1]) [] rest c es rfl (by simp)
              (WFp_tail _ _ hwf)
            refine ⟨psOut, h1, h2, ?_⟩
            intro m hm
            rcases h3 m hm with hl | hr
            · left
              rwa [toksOf_frag]
            · right
              exact hr
          | cons ch f' =>
            have hchM : ch ≠ 'M' := fun e =>
              hwf (ch :: f') (List.mem_cons_self _ _) (e ▸ List.mem_cons_self _ _)
            have harg : ([] : Chars) ++ flat (Piece.frag (ch :: f') :: rest)
                = ch :: ([] ++ flat (Piece.frag f' :: rest)) := rfl
            rw [harg]
            by_cases hpre : (o0 :: od').isPrefixOf
                (ch :: ([] ++ flat (Piece.frag f' :: rest))) = true
            · cases hfc : findClose (c0 :: cd')
                  ((ch :: ([] ++ flat (Piece.frag f' :: rest))).drop (o0 :: od').length) with
              | some pr =>
                obtain ⟨content, after⟩ := pr
                have hpre2 : (o0 :: od').isPrefixOf
                    (flat (Piece.frag (ch :: f') :: rest)) = true := hpre
                obtain ⟨psD, hD1, hD2, hD3, hD4⟩ := drop_pieces
                  ((o0 :: od').length + (Piece.frag (ch :: f') :: rest).length)
                  (o0 :: od') (Piece.frag (ch :: f') :: rest) rfl ho hpre2 hwf
                have hfc2 : findClose (c0 :: cd') ([] ++ flat psD) = some (content, after) := by
                  have heq : (ch :: ([] ++ flat (Piece.frag f' :: rest))).drop
                      (o0 :: od').length
                      = (flat (Piece.frag (ch :: f') :: rest)).drop (o0 :: od').length := rfl
                  rw [heq, hD1] at hfc
                  exact hfc
                obtain ⟨psA, hA1, hA2, hA3, hA4⟩ := findClose_pieces c0 cd' hc
                  (([] ++ flat psD).length + psD.length) [] psD rfl (by simp) hD2
                  content after hfc2
                rw [replaceMath_match _ _ ty (by simp) (by simp) ch
                  ([] ++ flat (Piece.frag f' :: rest)) c es content after hpre hfc]
                have hslen : (o0 :: od').length
                    ≤ (flat (Piece.frag (ch :: f') :: rest)).length := by
                  obtain ⟨tl, htl⟩ := (isPre_iff _ _).1 hpre2
                  rw [htl]
                  simp
                have hdlen : (flat psD).length
                    = (flat (Piece.frag (ch :: f') :: rest)).length - (o0 :: od').length := by
                  rw [← hD1]
                  simp [List.length_drop]
                have hdec := findClose_decomp (c0 :: cd') (by simp) _ content after hfc2
                have haflen : after.length + 2 ≤ (flat (Piece.frag (ch :: f') :: rest)).length := by
                  have hlen2 := congrArg List.length hdec
                  simp only [List.length_append, List.length_cons, List.nil_append] at hlen2
                  simp only [List.length_cons] at hslen hdlen
                  omega
                have hmeas : ([] ++ flat psA).length + psA.length < n := by
                  subst hn
                  have h5 : psA.length ≤ (Piece.frag (ch :: f') :: rest).length :=
                    le_trans hA3 hD3
                  have h6 : ([] ++ flat psA).length = after.length := by rw [← hA1]; rfl
                  rw [h6]
                  simp only [List.nil_append, List.length_append, List.length_cons] at haflen h5 ⊢
                  omega
                obtain ⟨psOut, h1, h2, h3⟩ := ih (([] ++ flat psA).length + psA.length)
                  hmeas [] psA (c + 1) (es ++ [Entry.mk (tokStr c) ty content]) rfl
                  (by simp) hA2
                have hcnt := (replaceMath_ids (o0 :: od') (c0 :: cd') ty (by simp) (by simp)
                  after.length after rfl (c + 1) (es ++ [Entry.mk (tokStr c) ty content])).2
                rw [hA1]
                have h1' : (replaceMath (o0 :: od') (c0 :: cd') ty (flat psA) (c + 1)
                    (es ++ [Entry.mk (tokStr c) ty content])).1 = flat psOut := h1
                have hwfOut : WFp (Piece.tokp c :: psOut) := by
                  intro g hg
                  rcases List.mem_cons.1 hg with hh | hh
                  · exact absurd hh (by simp)
                  · exact h2 g hh
                refine ⟨Piece.tokp c :: psOut, ?_, hwfOut, ?_⟩
                · show tokStr c ++ (replaceMath (o0 :: od') (c0 :: cd') ty (flat psA) (c + 1)
                      (es ++ [Entry.mk (tokStr c) ty content])).1
                    = [] ++ flat (Piece.tokp c :: psOut)
                  rw [h1']
                  rfl
                · intro m hm
                  rw [toksOf_tok] at hm
                  have hcnt' : c + 1 ≤ (replaceMath (o0 :: od') (c0 :: cd') ty (flat psA) (c + 1)
                      (es ++ [Entry.mk (tokStr c) ty content])).2.1 := by
                    rw [hA1] at hcnt
                    exact hcnt
                  rcases List.mem_cons.1 hm with rfl | hm'
                  · right
                    refine ⟨le_rfl, ?_⟩
                    show m < (replaceMath (o0 :: od') (c0 :: cd') ty (flat psA) (m + 1)
                        (es ++ [Entry.mk (tokStr m) ty content])).2.1
                    omega
                  · rcases h3 m hm' with hl | hr
                    · left
                      exact hD4 m (hA4 m hl)
                    · right
                      have hr' : c + 1 ≤ m ∧ m < (replaceMath (o0 :: od') (c0 :: cd') ty
                          (flat psA) (c + 1) (es ++ [Entry.mk (tokStr c) ty content])).2.1 := hr
                      exact ⟨by omega, hr'.2⟩
              | none =>
                rw [replaceMath_step _ _ ty (by simp) (by simp) ch
                  ([] ++ flat (Piece.frag f' :: rest)) c es (Or.inr hfc)]
                obtain ⟨psOut, h1, h2, h3⟩ := ih
                  (([] ++ flat (Piece.frag f' :: rest)).length + (Piece.frag f' :: rest).length)
                  (by subst hn; simp [flat, Piece.flat1]) [] (Piece.frag f' :: rest) c es rfl
                  (by simp) (WFp_frag_cons ch f' rest hwf)
                have hwfOut : WFp (Piece.frag [ch] :: psOut) := by
                  intro g hg
                  rcases List.mem_cons.1 hg with hh | hh
                  · have h2g : g = [ch] := Piece.frag.inj hh
                    rw [h2g]
                    intro hmm
                    rcases List.mem_cons.1 hmm with he | he
                    · exact hchM he.symm
                    · simp at he
                  · exact h2 g hh
                refine ⟨Piece.frag [ch] :: psOut, ?_, hwfOut, ?_⟩
                · show ch :: (replaceMath (o0 :: od') (c0 :: cd') ty
                      ([] ++ flat (Piece.frag f' :: rest)) c es).1
                    = [] ++ flat (Piece.frag [ch] :: psOut)
                  rw [h1]
                  rfl
                · intro m hm
                  rw [toksOf_frag] at hm
                  rcases h3 m hm with hl | hr
                  · left
                    rw [toksOf_frag] at hl
                    rwa [toksOf_frag]
                  · right
                    exact hr
            · rw [replaceMath_step _ _ ty (by simp) (by simp) ch
                ([] ++ flat (Piece.frag f' :: rest)) c es
                (Or.inl (by rwa [Bool.not_eq_true] at hpre))]
              obtain ⟨psOut, h1, h2, h3⟩ := ih
                (([] ++ flat (Piece.frag f' :: rest)).length + (Piece.frag f' :: rest).length)
                (by subst hn; simp [flat, Piece.flat1]) [] (Piece.frag f' :: rest) c es rfl
                (by simp) (WFp_frag_cons ch f' rest hwf)
              have hwfOut : WFp (Piece.frag [ch] :: psOut) := by
                intro g hg
                rcases List.mem_cons.1 hg with hh | hh
                · have h2g : g = [ch] := Piece.frag.inj hh
                  rw [h2g]
                  intro hmm
                  rcases List.mem_cons.1 hmm with he | he
                  · exact hchM he.symm
                  · simp at he
                · exact h2 g hh
              refine ⟨Piece.frag [ch] :: psOut, ?_, hwfOut, ?_⟩
              · show ch :: (replaceMath (o0 :: od') (c0 :: cd') ty
                    ([] ++ flat (Piece.frag f' :: rest)) c es).1
                  = [] ++ flat (Piece.frag [ch] :: psOut)
                rw [h1]
                rfl
              · intro m hm
                rw [toksOf_frag] at hm
                rcases h3 m hm with hl | hr
                · left
                  rw [toksOf_frag] at hl
                  rwa [toksOf_frag]
                · right
                  exact hr
        | tokp j =>
          have harg : ([] : Chars) ++ flat (Piece.tokp j :: rest)
              = 'M' :: (("ATHITEM".data ++ (natDigits j ++ "END".data)) ++ flat rest) := by
            show tokStr j ++ flat rest = _
            rw [tok_cons, List.cons_append]
          rw [harg]
          have hpreM : (o0 :: od').isPrefixOf
              ('M' :: (("ATHITEM".data ++ (natDigits j ++ "END".data)) ++ flat rest)) = false := by
            have h1 := ho o0 (List.mem_cons_self _ _)
            have ho0 : o0 ≠ 'M' := fun e => by rw [e] at h1; exact absurd h1 (by decide)
            exact isPre_false_of_head o0 _ 'M' _ ho0
          rw [replaceMath_step _ _ ty (by simp) (by simp) 'M'
            (("ATHITEM".data ++ (natDigits j ++ "END".data)) ++ flat rest) c es (Or.inl hpreM)]
          obtain ⟨psOut, h1, h2, h3⟩ := ih
            ((("ATHITEM".data ++ (natDigits j ++ "END".data)) ++ flat rest).length + rest.length)
            (by subst hn; simp [flat, Piece.flat1, tok_cons]; omega)
            ("ATHITEM".data ++ (natDigits j ++ "END".data)) rest c es rfl
            (tokTail_chars j) (WFp_tail _ _ hwf)
          have hwfOut : WFp (Piece.tokp j :: psOut) := by
            intro g hg
            rcases List.mem_cons.1 hg with hh | hh
            · exact absurd hh (by simp)
            · exact h2 g hh
          refine ⟨Piece.tokp j :: psOut, ?_, hwfOut, ?_⟩
          · show 'M' :: (replaceMath (o0 :: od') (c0 :: cd') ty
                (("ATHITEM".data ++ (natDigits j ++ "END".data)) ++ flat rest) c es).1
              = [] ++ flat (Piece.tokp j :: psOut)
            rw [h1]
            show 'M' :: (("ATHITEM".data ++ (natDigits j ++ "END".data)) ++ flat psOut)
              = [] ++ (tokStr j ++ flat psOut)
            rw [tok_cons, List.cons_append]
            rfl
          · intro m hm
            rw [toksOf_tok] at hm
            rcases List.mem_cons.1 hm with rfl | hm'
            · left
              rw [toksOf_tok]
              exact List.mem_cons_self _ _
            · rcases h3 m hm' with hl | hr
              · left
                rw [toksOf_tok]
                exact List.mem_cons_of_mem _ hl
              · right
                exact hr

theorem stage_chain (o0 : Char) (od' : Chars) (c0 : Char) (cd' : Chars) (ty : SpanType)
    (ho : ∀ x ∈ (o0 :: od'), tokChar x = false)
    (hc : ∀ x ∈ (c0 :: cd'), tokChar x = false)
    (s : Chars) (c : Nat) (es : List Entry) (ps : List Piece)
    (hs : s = flat ps) (hwf : WFp ps) (hb : ∀ m, m ∈ toksOf ps → m < c) :
    ∃ ps', (replaceMath (o0 :: od') (c0 :: cd') ty s c es).1 = flat ps'
      ∧ WFp ps'
      ∧ ∀ m, m ∈ toksOf ps' → m < (replaceMath (o0 :: od') (c0 :: cd') ty s c es).2.1 := by
  subst hs
  obtain ⟨ps', H, W, T⟩ := replaceMath_pieces o0 od' c0 cd' ty ho hc
    (([] ++ flat ps).length + ps.length) [] ps c es rfl (by simp) hwf
  have hmono := (replaceMath_ids (o0 :: od') (c0 :: cd') ty (by simp) (by simp)
    (flat ps).length (flat ps) rfl c es).2
  have H' : (replaceMath (o0 :: od') (c0 :: cd') ty (flat ps) c es).1 = flat ps' := H
  refine ⟨ps', H', W, ?_⟩
  intro m hm
  rcases T m hm with hl | hr
  · have h1 := hb m hl
    omega
  · have hr' : c ≤ m ∧ m < (replaceMath (o0 :: od') (c0 :: cd') ty (flat ps) c es).2.1 := hr
    exact hr'.2

theorem extract_pieces (text : Chars) (htext : 'M' ∉ text) :
    ∃ ps, (extractAll text).1 = flat ps ∧ WFp ps
      ∧ ∀ m, m ∈ toksOf ps → m < (extractAll text).2.1 := by
  have hwf0 : WFp [Piece.frag text] := by
    intro f hf
    have hfeq : f = text := by
      rcases List.mem_cons.1 hf with hh | hh
      · exact Piece.frag.inj hh
      · simp at hh
    rw [hfeq]
    exact htext
  have hb0 : ∀ m, m ∈ toksOf [Piece.frag text] → m < 0 := by
    intro m hm
    simp [toksOf] at hm
  have hs0 : text = flat [Piece.frag text] := by
    simp [flat, Piece.flat1]
  obtain ⟨ps1, H1, W1, T1⟩ := stage_chain '$' "$".data '$' "$".data SpanType.block
    (by decide) (by decide) text 0 [] [Piece.frag text] hs0 hwf0 hb0
  obtain ⟨ps2, H2, W2, T2⟩ := stage_chain '\\' "[".data '\\' "]".data SpanType.block
    (by decide) (by decide)
    (replaceMath ('$' :: "$".data) ('$' :: "$".data) SpanType.block text 0 []).1
    (replaceMath ('$' :: "$".data) ('$' :: "$".data) SpanType.block text 0 []).2.1
    (replaceMath ('$' :: "$".data) ('$' :: "$".data) SpanType.block text 0 []).2.2
    ps1 H1 W1 T1
  obtain ⟨ps3, H3, W3, T3⟩ := stage_chain '\\' "(".data '\\' ")".data SpanType.inline
    (by decide) (by decide)
    (replaceMath ('\\' :: "[".data) ('\\' :: "]".data) SpanType.block
      (replaceMath ('$' :: "$".data) ('$' :: "$".data) SpanType.block text 0 []).1
      (replaceMath ('$' :: "$".data) ('$' :: "$".data) SpanType.block text 0 []).2.1
      (replaceMath ('$' :: "$".data) ('$' :: "$".data) SpanType.block text 0 []).2.2).1
    (replaceMath ('\\' :: "[".data) ('\\' :: "]".data) SpanType.block
      (replaceMath ('$' :: "$".data) ('$' :: "$".data) SpanType.block text 0 []).1
      (replaceMath ('$' :: "$".data) ('$' :: "$".data) SpanType.block text 0 []).2.1
      (replaceMath ('$' :: "$".data) ('$' :: "$".data) SpanType.block text 0 []).2.2).2.1
    (replaceMath ('\\' :: "[".data) ('\\' :: "]".data) SpanType.block
      (replaceMath ('$' :: "$".data) ('$' :: "$".data) SpanType.block text 0 []).1
      (replaceMath ('$' :: "$".data) ('$' :: "$".data) SpanType.block text 0 []).2.1
      (replaceMath ('$' :: "$".data) ('$' :: "$".data) SpanType.block text 0 []).2.2).2.2
    ps2 H2 W2 T2
  obtain ⟨ps4, H4, W4, T4⟩ := stage_chain '$' ([] : Chars) '$' ([] : Chars) SpanType.inline
    (by decide) (by decide)
    (replaceMath ('\\' :: "(".data) ('\\' :: ")".data) SpanType.inline
      (replaceMath ('\\' :: "[".data) ('\\' :: "]".data) SpanType.block
        (replaceMath ('$' :: "$".data) ('$' :: "$".data) SpanType.block text 0 []).1
        (replaceMath ('$' :: "$".data) ('$' :: "$".data) SpanType.block text 0 []).2.1
        (replaceMath ('$' :: "$".data) ('$' :: "$".data) SpanType.block text 0 []).2.2).1
      (replaceMath ('\\' :: "[".data) ('\\' :: "]".data) SpanType.block
        (replaceMath ('$' :: "$".data) ('$' :: "$".data) SpanType.block text 0 []).1
        (replaceMath ('$' :: "$".data) ('$' :: "$".data) SpanType.block text 0 []).2.1
        (replaceMath ('$' :: "$".data) ('$' :: "$".data) SpanType.block text 0 []).2.2).2.1
      (replaceMath ('\\' :: "[".data) ('\\' :: "]".data) SpanType.block
        (replaceMath ('$' :: "$".data) ('$' :: "$".data) SpanType.block text 0 []).1
        (replaceMath ('$' :: "$".data) ('$' :: "$".data) SpanType.block text 0 []).2.1
        (replaceMath ('$' :: "$".data) ('$' :: "$".data) SpanType.block text 0 []).2.2).2.2).1
    (replaceMath ('\\' :: "(".data) ('\\' :: ")".data) SpanType.inline
      (replaceMath ('\\' :: "[".data) ('\\' :: "]".data) SpanType.block
        (replaceMath ('$' :: "$".data) ('$' :: "$".data) SpanType.block text 0 []).1
        (replaceMath ('$' :: "$".data) ('$' :: "$".data) SpanType.block text 0 []).2.1
        (replaceMath ('$' :: "$".data) ('$' :: "$".data) SpanType.block text 0 []).2.2).1
      (replaceMath ('\\' :: "[".data) ('\\' :: "]".data) SpanType.block
        (replaceMath ('$' :: "$".data) ('$' :: "$".data) SpanType.block text 0 []).1
        (replaceMath ('$' :: "$".data) ('$' :: "$".data) SpanType.block text 0 []).2.1
        (replaceMath ('$' :: "$".data) ('$' :: "$".data) SpanType.block text 0 []).2.2).2.1
      (replaceMath ('\\' :: "[".data) ('\\' :: "]".data) SpanType.block
        (replaceMath ('$' :: "$".data) ('$' :: "$".data) SpanType.block text 0 []).1
        (replaceMath ('$' :: "$".data) ('$' :: "$".data) SpanType.block text 0 []).2.1
        (replaceMath ('$' :: "$".data) ('$' :: "$".data) SpanType.block text 0 []).2.2).2.2).2.1
    (replaceMath ('\\' :: "(".data) ('\\' :: ")".data) SpanType.inline
      (replaceMath ('\\' :: "[".data) ('\\' :: "]".data) SpanType.block
        (replaceMath ('$' :: "$".data) ('$' :: "$".data) SpanType.block text 0 []).1
        (replaceMath ('$' :: "$".data) ('$' :: "$".data) SpanType.block text 0 []).2.1
        (replaceMath ('$' :: "$".data) ('$' :: "$".data) SpanType.block text 0 []).2.2).1
      (replaceMath ('\\' :: "[".data) ('\\' :: "]".data) SpanType.block
        (replaceMath ('$' :: "$".data) ('$' :: "$".data) SpanType.block text 0 []).1
        (replaceMath ('$' :: "$".data) ('$' :: "$".data) SpanType.block text 0 []).2.1
        (replaceMath ('$' :: "$".data) ('$' :: "$".data) SpanType.block text 0 []).2.2).2.1
      (replaceMath ('\\' :: "[".data) ('\\' :: "]".data) SpanType.block
        (replaceMath ('$' :: "$".data) ('$' :: "$".data) SpanType.block text 0 []).1
        (replaceMath ('$' :: "$".data) ('$' :: "$".data) SpanType.block text 0 []).2.1
        (replaceMath ('$' :: "$".data) ('$' :: "$".data) SpanType.block text 0 []).2.2).2.2).2.2
    ps3 H3 W3 T3
  exact ⟨ps4, H4, W4, T4⟩

theorem extract_ids_full (text : Chars) :
    (extractAll text).2.2.map Entry.id
      = (List.range (extractAll text).2.1).map tokStr := by
  have s1 := (ids_invariant "$$".data "$$".data SpanType.block (by decide) (by decide)
    text 0 [] (by simp)).1
  have s2 := (ids_invariant "\\[".data "\\]".data SpanType.block (by decide) (by decide)
    (replaceMath "$$".data "$$".data SpanType.block text 0 []).1
    (replaceMath "$$".data "$$".data SpanType.block text 0 []).2.1
    (replaceMath "$$".data "$$".data SpanType.block text 0 []).2.2 s1).1
  have s3 := (ids_invariant "\\(".data "\\)".data SpanType.inline (by decide) (by decide)
    (replaceMath "\\[".data "\\]".data SpanType.block
      (replaceMath "$$".data "$$".data SpanType.block text 0 []).1
      (replaceMath "$$".data "$$".data SpanType.block text 0 []).2.1
      (replaceMath "$$".data "$$".data SpanType.block text 0 []).2.2).1
    (replaceMath "\\[".data "\\]".data SpanType.block
      (replaceMath "$$".data "$$".data SpanType.block text 0 []).1
      (replaceMath "$$".data "$$".data SpanType.block text 0 []).2.1
      (replaceMath "$$".data "$$".data SpanType.block text 0 []).2.2).2.1
    (replaceMath "\\[".data "\\]".data SpanType.block
      (replaceMath "$$".data "$$".data SpanType.block text 0 []).1
      (replaceMath "$$".data "$$".data SpanType.block text 0 []).2.1
      (replaceMath "$$".data "$$".data SpanType.block text 0 []).2.2).2.2 s2).1
  exact (ids_invariant "$".data "$".data SpanType.inline (by decide) (by decide)
    (replaceMath "\\(".data "\\)".data SpanType.inline
      (replaceMath "\\[".data "\\]".data SpanType.block
        (replaceMath "$$".data "$$".data SpanType.block text 0 []).1
        (replaceMath "$$".data "$$".data SpanType.block text 0 []).2.1
        (replaceMath "$$".data "$$".data SpanType.block text 0 []).2.2).1
      (replaceMath "\\[".data "\\]".data SpanType.block
        (replaceMath "$$".data "$$".data SpanType.block text 0 []).1
        (replaceMath "$$".data "$$".data SpanType.block text 0 []).2.1
        (replaceMath "$$".data "$$".data SpanType.block text 0 []).2.2).2.1
      (replaceMath "\\[".data "\\]".data SpanType.block
        (replaceMath "$$".data "$$".data SpanType.block text 0 []).1
        (replaceMath "$$".data "$$".data SpanType.block text 0 []).2.1
        (replaceMath "$$".data "$$".data SpanType.block text 0 []).2.2).2.2).1
    (replaceMath "\\(".data "\\)".data SpanType.inline
      (replaceMath "\\[".data "\\]".data SpanType.block
        (replaceMath "$$".data "$$".data SpanType.block text 0 []).1
        (replaceMath "$$".data "$$".data SpanType.block text 0 []).2.1
        (replaceMath "$$".data "$$".data SpanType.block text 0 []).2.2).1
      (replaceMath "\\[".data "\\]".data SpanType.block
        (replaceMath "$$".data "$$".data SpanType.block text 0 []).1
        (replaceMath "$$".data "$$".data SpanType.block text 0 []).2.1
        (replaceMath "$$".data "$$".data SpanType.block text 0 []).2.2).2.1
      (replaceMath "\\[".data "\\]".data SpanType.block
        (replaceMath "$$".data "$$".data SpanType.block text 0 []).1
        (replaceMath "$$".data "$$".data SpanType.block text 0 []).2.1
        (replaceMath "$$".data "$$".data SpanType.block text 0 []).2.2).2.2).2.1
    (replaceMath "\\(".data "\\)".data SpanType.inline
      (replaceMath "\\[".data "\\]".data SpanType.block
        (replaceMath "$$".data "$$".data SpanType.block text 0 []).1
        (replaceMath "$$".data "$$".data SpanType.block text 0 []).2.1
        (replaceMath "$$".data "$$".data SpanType.block text 0 []).2.2).1
      (replaceMath "\\[".data "\\]".data SpanType.block
        (replaceMath "$$".data "$$".data SpanType.block text 0 []).1
        (replaceMath "$$".data "$$".data SpanType.block text 0 []).2.1
        (replaceMath "$$".data "$$".data SpanType.block text 0 []).2.2).2.1
      (replaceMath "\\[".data "\\]".data SpanType.block
        (replaceMath "$$".data "$$".data SpanType.block text 0 []).1
        (replaceMath "$$".data "$$".data SpanType.block text 0 []).2.1
        (replaceMath "$$".data "$$".data SpanType.block text 0 []).2.2).2.2).2.2 s3).1

theorem extract_count (text : Chars) :
    (extractAll text).2.2.length = (extractAll text).2.1 := by
  have h := congrArg List.length (extract_ids_full text)
  simpa using h

theorem hasPattern_mem : ∀ (s : Chars), hasPattern s = true → 'M' ∈ s := by
  intro s
  induction s with
  | nil => intro h; simp [hasPattern] at h
  | cons c rest ih =>
    intro h
    rw [hasPattern, Bool.or_eq_true] at h
    rcases h with h | h
    · rw [patternAt, Bool.and_eq_true] at h
      obtain ⟨t, ht⟩ := (isPre_iff _ _).1 h.1
      rw [ht]
      rw [List.mem_append]
      left
      decide
    · exact List.mem_cons_of_mem _ (ih h)

/-- C1 (amended): on inputs containing no occurrence of the capital letter
`M` (so in particular no token-shaped text), with the Markdown transform
modelled as token-transparent (the identity, per the spec's guarantee that
plain alphanumeric runs pass through it unmodified) and a math transform
whose rendered outputs are free of `M`, the final output of the renderer
contains zero substrings matching the placeholder pattern: every placed
token is eliminated by the restoration loop and nothing token-shaped
remains. -/
theorem c1_no_token_leak (kat : Chars → Bool → Except Chars Chars) (text : Chars)
    (htext : 'M' ∉ text)
    (hkat : ∀ m b, ∃ r, kat m b = Except.ok r ∧ 'M' ∉ r) :
    hasPattern (htmlContent (fun s => s) kat text) = false := by
  by_cases hemp : text.isEmpty = true
  · have he : htmlContent (fun s => s) kat text = [] := by
      simp [htmlContent, hemp]
    rw [he]
    rfl
  · have he : htmlContent (fun s => s) kat text
        = restore kat (extractAll text).2.2 ((extractAll text).1) := by
      simp only [htmlContent, if_neg hemp]
    obtain ⟨ps, hfl, hwf, htk⟩ := extract_pieces text htext
    have hM : 'M' ∉ restore kat (extractAll text).2.2 (flat ps) := by
      refine restore_Mfree kat hkat (extractAll text).2.2 ps hwf ?_ ?_
      · intro e he'
        have hids := extract_ids text
        have hmem : e.id ∈ (extractAll text).2.2.map Entry.id := List.mem_map_of_mem _ he'
        rw [hids, List.mem_map] at hmem
        obtain ⟨i, _, hi⟩ := hmem
        exact ⟨i, hi.symm⟩
      · intro m hm
        have hmc := htk m hm
        have hmem : tokStr m ∈ (extractAll text).2.2.map Entry.id := by
          rw [extract_ids_full text]
          exact List.mem_map_of_mem _ (List.mem_range.2 hmc)
        rw [List.mem_map] at hmem
        obtain ⟨e, he', hid⟩ := hmem
        exact ⟨e, he', hid⟩
    rw [he, hfl]
    cases hp : hasPattern (restore kat (extractAll text).2.2 (flat ps)) with
    | false => rfl
    | true => exact absurd (hasPattern_mem _ hp) hM

/-- Witness for `c1_no_token_leak` at a concrete input and math transform. -/
theorem c1_no_token_leak_witness :
    ('M' ∉ "hello $x$ world".data)
    ∧ hasPattern (htmlContent (fun s => s)
        (fun _ _ => Except.ok "<span>k</span>".data) "hello $x$ world".data) = false :=
  ⟨by decide, c1_no_token_leak (fun _ _ => Except.ok "<span>k</span>".data)
    "hello $x$ world".data (by decide)
    (fun _ _ => ⟨"<span>k</span>".data, rfl, by decide⟩)⟩
